import Mathlib

/-!
# mscan: the event-dispatch engine of mtrace-tools

A shallow embedding of `src/mtrace-tools/mscan.cc`: the global state the default
handlers update, the four default handlers, the handler chains built by
`init_handlers` and the dispatch loop `process_log`.

Conventions of the embedding.

* The global variables of `mscan.cc` are the fields of `State`; a handler is a
  function from the record and the state to `Outcome State`: either the call
  returns (`Outcome.ok`) or the process stops (`Outcome.stop`), and then the
  outcome keeps the state the globals had when it stopped.
* `die(...)` is the fault `Fault.die`.  An array index outside the array is
  `Fault.out_of_range`, reading a union through an arm the record was not decoded
  into is `Fault.wrong_arm` (both are undefined behaviour in C++).
* The enumerators and sizes of `mtrace-magic.h` and `mscan.hh` are not in the
  source tree; they are the fields of `MtraceMagic`, a parameter of the development.
* Integers read from a record are `Nat`; the code does no arithmetic on them.
* A C string is the list of its bytes.
-/

namespace Mscan

/-! ## Constants of the absent headers -/

/-- Enumerators and sizes that `mscan.cc` takes from `mtrace-magic.h` and `mscan.hh`. -/
structure MtraceMagic where
  mtrace_entry_label : Nat
  mtrace_entry_access : Nat
  mtrace_entry_host : Nat
  mtrace_entry_fcall : Nat
  mtrace_entry_lock : Nat
  mtrace_entry_appdata : Nat
  mtrace_entry_num : Nat
  mtrace_access_all_cpu : Nat
  mtrace_call_clear_cpu : Nat
  mtrace_call_set_cpu : Nat
  mtrace_start : Nat
  mtrace_done : Nat
  mtrace_resume : Nat
  mtrace_pause : Nat
  mtrace_label_end : Nat
  MAX_CPUS : Nat
  sizeof_access_str : Nat
  deriving DecidableEq, Repr

/-- What C++ guarantees of the enumerators: the six record kinds used by `mscan.cc` are
pairwise distinct and below `mtrace_entry_num` (the size of `entry_handler`), the three host
sub-types are pairwise distinct, and the four call states are pairwise distinct (they are
the case labels of one `switch`). -/
def MtraceMagic.WF (M : MtraceMagic) : Prop :=
  [M.mtrace_entry_label, M.mtrace_entry_access, M.mtrace_entry_host, M.mtrace_entry_fcall,
    M.mtrace_entry_lock, M.mtrace_entry_appdata].Nodup ∧
  (∀ k ∈ [M.mtrace_entry_label, M.mtrace_entry_access, M.mtrace_entry_host,
    M.mtrace_entry_fcall, M.mtrace_entry_lock, M.mtrace_entry_appdata], k < M.mtrace_entry_num) ∧
  [M.mtrace_access_all_cpu, M.mtrace_call_clear_cpu, M.mtrace_call_set_cpu].Nodup ∧
  [M.mtrace_start, M.mtrace_done, M.mtrace_resume, M.mtrace_pause].Nodup

instance (M : MtraceMagic) : Decidable M.WF := by
  unfold MtraceMagic.WF
  infer_instance

/-- One admissible valuation of the constants, used to evaluate the definitions. -/
def magic : MtraceMagic where
  mtrace_entry_label := 1
  mtrace_entry_access := 2
  mtrace_entry_host := 3
  mtrace_entry_fcall := 4
  mtrace_entry_lock := 7
  mtrace_entry_appdata := 11
  mtrace_entry_num := 12
  mtrace_access_all_cpu := 1
  mtrace_call_clear_cpu := 2
  mtrace_call_set_cpu := 3
  mtrace_start := 1
  mtrace_done := 2
  mtrace_resume := 3
  mtrace_pause := 4
  mtrace_label_end := 5
  MAX_CPUS := 4
  sizeof_access_str := 32

/-! ## Trace records -/

/-- The common header `entry.h`: kind tag and originating CPU. -/
structure mtrace_entry_header where
  type : Nat
  cpu : Nat
  deriving DecidableEq, Repr

/-- The `access` member of a host record; `str` is the bytes of its `char` array. -/
structure mtrace_host_access where
  str : List Nat
  deriving DecidableEq, Repr

/-- The arm `entry->host`. -/
structure mtrace_host_entry where
  h : mtrace_entry_header
  host_type : Nat
  access : mtrace_host_access
  deriving DecidableEq, Repr

/-- The arm `entry->appdata`. -/
structure mtrace_appdata_entry where
  h : mtrace_entry_header
  u64 : Nat
  deriving DecidableEq, Repr

/-- The arm `entry->fcall`. -/
structure mtrace_fcall_entry where
  h : mtrace_entry_header
  state : Nat
  pc : Nat
  deriving DecidableEq, Repr

/-- The arm `entry->label`: label type, target address, byte length and metadata. -/
structure mtrace_label_entry where
  h : mtrace_entry_header
  label_type : Nat
  guest_addr : Nat
  bytes : Nat
  str : List Nat
  deriving DecidableEq, Repr

/-- The union `mtrace_entry`, one arm per record shape the core reads; every other kind
(access, lock, ...) is `other`, its payload being of no concern to the core. -/
inductive mtrace_entry where
  | host (e : mtrace_host_entry)
  | appdata (a : mtrace_appdata_entry)
  | fcall (f : mtrace_fcall_entry)
  | label (l : mtrace_label_entry)
  | other (h : mtrace_entry_header) (payload : List Nat)
  deriving DecidableEq, Repr

/-- The header `entry.h`, shared by all arms. -/
def mtrace_entry.h : mtrace_entry → mtrace_entry_header
  | .host e => e.h
  | .appdata a => a.h
  | .fcall f => f.h
  | .label l => l.h
  | .other h _ => h

/-! ## Global state -/

/-- How a handler can stop the process. -/
inductive Fault where
  | die
  | out_of_range
  | wrong_arm
  deriving DecidableEq, Repr

/-- The outcome of a call: it returned in state `s`, or the process stopped with fault `f`
while the state was `s`. -/
inductive Outcome (σ : Type) where
  | ok (s : σ)
  | stop (f : Fault) (s : σ)
  deriving DecidableEq, Repr

/-- The outcome with its state transported along `g`. -/
def Outcome.map {σ τ : Type} (g : σ → τ) : Outcome σ → Outcome τ
  | .ok s => .ok (g s)
  | .stop f s => .stop f (g s)

/-- The state in which a call returned, if it did. -/
def Outcome.returned {σ : Type} : Outcome σ → Option σ
  | .ok s => some s
  | .stop _ _ => none

/-- The summary counters `MtraceSummary` (mscan.hh), of which `mscan.cc` writes `app_ops`. -/
structure MtraceSummary where
  app_ops : Nat
  deriving DecidableEq, Repr

/-- Modelled from the spec: the Label Table `MtraceLabelMap` (class of mscan.hh, absent from
src): a mapping from address to the active label, kept as the list of active label records,
at most one per address once written through `add_label`. -/
abbrev MtraceLabelMap := List mtrace_label_entry

/-- Modelled from the spec: `MtraceLabelMap::add_label` (mscan.hh, absent from src) inserts
or overwrites the entry at the address of the record. -/
def MtraceLabelMap.add_label (m : MtraceLabelMap) (l : mtrace_label_entry) : MtraceLabelMap :=
  l :: m.filter (fun x => x.guest_addr != l.guest_addr)

/-- Modelled from the spec: `MtraceLabelMap::rem_label` (mscan.hh, absent from src) deletes
the entry at the address of the record. -/
def MtraceLabelMap.rem_label (m : MtraceLabelMap) (l : mtrace_label_entry) : MtraceLabelMap :=
  m.filter (fun x => x.guest_addr != l.guest_addr)

/-- The entries of the Label Table at address `a`. -/
def MtraceLabelMap.entries_at (m : MtraceLabelMap) (a : Nat) : List mtrace_label_entry :=
  m.filter (fun x => x.guest_addr == a)

/-- The global state of `mscan.cc` that the default handlers update, together with the
state `analysis` owned by the analysis modules. -/
structure State (X : Type) where
  mtrace_enable : mtrace_host_entry
  mtrace_app_name : List Nat
  mtrace_summary : MtraceSummary
  mtrace_call_pc : List Nat
  mtrace_label_map : MtraceLabelMap
  analysis : X
  deriving DecidableEq

/-- The size of `char mtrace_app_name[32]`. -/
def sizeof_mtrace_app_name : Nat := 32

/-- The C string held in a `char` array: the bytes before the first NUL. -/
def cstr (a : List Nat) : List Nat :=
  a.takeWhile (fun b => b != 0)

/-- The array written by `strncpy(dst, src, n)`: the string in `src` cut to `n` bytes and
padded with NUL to `n` bytes. -/
def strncpy (src : List Nat) (n : Nat) : List Nat :=
  ((cstr src).take n) ++ List.replicate (n - ((cstr src).take n).length) 0

/-- Static initialisation: every global is zeroed, the Label Table is empty. -/
def State.init (M : MtraceMagic) {X : Type} (x : X) : State X where
  mtrace_enable :=
    { h := { type := 0, cpu := 0 }, host_type := 0
      access := { str := List.replicate M.sizeof_access_str 0 } }
  mtrace_app_name := List.replicate sizeof_mtrace_app_name 0
  mtrace_summary := { app_ops := 0 }
  mtrace_call_pc := List.replicate M.MAX_CPUS 0
  mtrace_label_map := []
  analysis := x

/-! ## The default handlers -/

/-- `DefaultHostHandler::handle`. -/
def DefaultHostHandler.handle (M : MtraceMagic) {X : Type} (entry : mtrace_entry)
    (s : State X) : Outcome (State X) :=
  match entry with
  | .host e =>
    if e.host_type = M.mtrace_call_clear_cpu ∨ e.host_type = M.mtrace_call_set_cpu then
      .ok s
    else if e.host_type ≠ M.mtrace_access_all_cpu then
      .stop .die s
    else
      let name :=
        if s.mtrace_app_name.headD 0 = 0 then strncpy e.access.str sizeof_mtrace_app_name
        else s.mtrace_app_name
      .ok { s with mtrace_app_name := name, mtrace_enable := e }
  | _ => .stop .wrong_arm s

/-- `DefaultAppDataHandler::handle`. -/
def DefaultAppDataHandler.handle {X : Type} (entry : mtrace_entry)
    (s : State X) : Outcome (State X) :=
  match entry with
  | .appdata a => .ok { s with mtrace_summary := { s.mtrace_summary with app_ops := a.u64 } }
  | _ => .stop .wrong_arm s

/-- The assignment `mtrace_call_pc[cpu] = v`. -/
def set_call_pc {X : Type} (s : State X) (cpu : Nat) (v : Nat) : Outcome (State X) :=
  if cpu < s.mtrace_call_pc.length then
    .ok { s with mtrace_call_pc := s.mtrace_call_pc.set cpu v }
  else
    .stop .out_of_range s

/-- `DefaultFcallHandler::handle`. -/
def DefaultFcallHandler.handle (M : MtraceMagic) {X : Type} (entry : mtrace_entry)
    (s : State X) : Outcome (State X) :=
  match entry with
  | .fcall f =>
    let cpu := f.h.cpu
    if f.state = M.mtrace_resume then set_call_pc s cpu f.pc
    else if f.state = M.mtrace_start then set_call_pc s cpu f.pc
    else if f.state = M.mtrace_pause then set_call_pc s cpu 0
    else if f.state = M.mtrace_done then set_call_pc s cpu 0
    else .stop .die s
  | _ => .stop .wrong_arm s

/-- `DefaultLabelHandler::handle`. -/
def DefaultLabelHandler.handle (M : MtraceMagic) {X : Type} (entry : mtrace_entry)
    (s : State X) : Outcome (State X) :=
  match entry with
  | .label l =>
    if l.label_type = 0 ∨ l.label_type ≥ M.mtrace_label_end then
      .stop .die s
    else if l.bytes ≠ 0 then
      .ok { s with mtrace_label_map := s.mtrace_label_map.add_label l }
    else
      .ok { s with mtrace_label_map := s.mtrace_label_map.rem_label l }
  | _ => .stop .wrong_arm s

/-- A handler applied to the records of a list in order, stopping at the first fault. -/
def handle_all {σ : Type} (handle : mtrace_entry → σ → Outcome σ) :
    List mtrace_entry → σ → Outcome σ
  | [], s => .ok s
  | entry :: rest, s =>
    match handle entry s with
    | .ok s' => handle_all handle rest s'
    | .stop f s' => .stop f s'

/-! ## Handler chains and the dispatch loop -/

/-- An object of class `EntryHandler` (mscan.hh): `id` stands for the address of the object,
which is what the chains store; `handle` and `exit` are its virtual methods. -/
structure EntryHandler (σ : Type) where
  id : Nat
  handle : mtrace_entry → σ → Outcome σ
  exit : σ → Outcome σ

/-- The two file-static registries: `entry_handler[mtrace_entry_num]` (as a function of
the index, the array bound being checked where the array is read) and `exit_handler`. -/
structure Registry (σ : Type) where
  entry_handler : Nat → List (EntryHandler σ)
  exit_handler : List (EntryHandler σ)

/-- A virtual call made by `process_log`: `handle` of object `id` on the record read by the
`rec`-th call of `read_entry` (counted from 0), or `exit` of object `id`. -/
inductive Call where
  | handle (id : Nat) (rec : Nat)
  | exit (id : Nat)
  deriving DecidableEq, Repr

/-- Whether a call is a `handle` call. -/
def Call.isHandle : Call → Bool
  | .handle _ _ => true
  | .exit _ => false

/-- Whether a call is a `handle` call on the record of the `i`-th read. -/
def Call.isHandleOf (i : Nat) : Call → Bool
  | .handle _ j => j == i
  | .exit _ => false

/-- Whether a call is an `exit` call. -/
def Call.isExit : Call → Bool
  | .handle _ _ => false
  | .exit _ => true

/-- An execution: the virtual calls begun, in order, and its outcome. -/
structure Run (σ : Type) where
  calls : List Call
  result : Outcome σ

/-- Sequential composition: `k` runs on the state `a` reached, unless `a` stopped. -/
def Run.andThen {σ : Type} (a : Run σ) (k : σ → Run σ) : Run σ :=
  match a.result with
  | .ok s => { calls := a.calls ++ (k s).calls, result := (k s).result }
  | .stop f s => { calls := a.calls, result := .stop f s }

/-- One virtual call `(*it)->handle(&entry)`. -/
def call_handle {σ : Type} (i : Nat) (entry : mtrace_entry) (h : EntryHandler σ) (s : σ) :
    Run σ :=
  { calls := [Call.handle h.id i], result := h.handle entry s }

/-- One virtual call `(*it)->exit()`. -/
def call_exit {σ : Type} (h : EntryHandler σ) (s : σ) : Run σ :=
  { calls := [Call.exit h.id], result := h.exit s }

/-- The inner loop of `process_log`: `for (; it != l->end(); ++it) (*it)->handle(&entry)`. -/
def run_handle {σ : Type} (i : Nat) (entry : mtrace_entry) :
    List (EntryHandler σ) → σ → Run σ
  | [], s => { calls := [], result := .ok s }
  | h :: it, s => (call_handle i entry h s).andThen (run_handle i entry it)

/-- The last loop of `process_log`: `for (; it != exit_handler.end(); ++it) (*it)->exit()`. -/
def run_exit {σ : Type} : List (EntryHandler σ) → σ → Run σ
  | [], s => { calls := [], result := .ok s }
  | h :: it, s => (call_exit h s).andThen (run_exit it)

/-- The body of the `while` loop for the record `entry`, the `i`-th read: the chain
`entry_handler[entry.h.type]` is looked up and run. -/
def dispatch {σ : Type} (M : MtraceMagic) (R : Registry σ) (i : Nat) (entry : mtrace_entry)
    (s : σ) : Run σ :=
  if entry.h.type < M.mtrace_entry_num then
    run_handle i entry (R.entry_handler entry.h.type) s
  else
    { calls := [], result := .stop .out_of_range s }

/-- The log as `process_log` sees it: the results of the successive calls of `read_entry`
(util.h, not in src), each the `int` returned (positive: a record was decoded, 0: end of
stream, negative: decode error) with the content of `entry` after the call; once the list
is exhausted `read_entry` returns 0. -/
abbrev gzFile := List (Int × mtrace_entry)

/-- The `while ((r = read_entry(log, &entry)) > 0)` loop of `process_log`, `i` being the
number of records read before. -/
def scan {σ : Type} (M : MtraceMagic) (R : Registry σ) : Nat → gzFile → σ → Run σ
  | _, [], s => { calls := [], result := .ok s }
  | i, (r, entry) :: log, s =>
    if r > 0 then
      (dispatch M R i entry s).andThen (scan M R (i + 1) log)
    else
      { calls := [], result := .ok s }

/-- `process_log`: the dispatch loop followed by the `exit` calls. -/
def process_log {σ : Type} (M : MtraceMagic) (R : Registry σ) (log : gzFile) (s : σ) :
    Run σ :=
  (scan M R 0 log s).andThen (run_exit R.exit_handler)

/-! ## Registration -/

/-- `EntryHandler::exit` as inherited by the default handlers: nothing is done. -/
def EntryHandler.exit_default {σ : Type} (s : σ) : Outcome σ := .ok s

/-- Modelled from the spec: an analysis module (the classes `DistinctSyscalls`,
`DistinctOps` and `SerialSections` of dissys.hh and sersec.hh, absent from src): its
`handle` and `exit` read the Process State and the Label Table but never mutate them; they
update the state the module owns, or abort (leaving that state as the outcome says). -/
structure AnalysisModule (X : Type) where
  handle : mtrace_entry → State X → Outcome X
  exit : State X → Outcome X

/-- The handler object of an analysis module, allocated at address `id`. -/
def AnalysisModule.new {X : Type} (A : AnalysisModule X) (id : Nat) :
    EntryHandler (State X) where
  id := id
  handle := fun entry s => (A.handle entry s).map (fun x => { s with analysis := x })
  exit := fun s => (A.exit s).map (fun x => { s with analysis := x })

/-- The three analysis modules `init_handlers` instantiates. -/
structure Analyses (X : Type) where
  DistinctSyscalls : AnalysisModule X
  DistinctOps : AnalysisModule X
  SerialSections : AnalysisModule X

/-- `new DefaultHostHandler()`. -/
def DefaultHostHandler.new (M : MtraceMagic) {X : Type} : EntryHandler (State X) :=
  { id := 0, handle := DefaultHostHandler.handle M, exit := EntryHandler.exit_default }

/-- `new DefaultAppDataHandler()`. -/
def DefaultAppDataHandler.new {X : Type} : EntryHandler (State X) :=
  { id := 1, handle := DefaultAppDataHandler.handle, exit := EntryHandler.exit_default }

/-- `new DefaultFcallHandler()`. -/
def DefaultFcallHandler.new (M : MtraceMagic) {X : Type} : EntryHandler (State X) :=
  { id := 2, handle := DefaultFcallHandler.handle M, exit := EntryHandler.exit_default }

/-- `new DefaultLabelHandler()`. -/
def DefaultLabelHandler.new (M : MtraceMagic) {X : Type} : EntryHandler (State X) :=
  { id := 3, handle := DefaultLabelHandler.handle M, exit := EntryHandler.exit_default }

/-- `entry_handler[k].push_front(h)`. -/
def Registry.push_front {σ : Type} (R : Registry σ) (k : Nat) (h : EntryHandler σ) :
    Registry σ :=
  { R with entry_handler := Function.update R.entry_handler k (h :: R.entry_handler k) }

/-- `entry_handler[k].push_back(h)`. -/
def Registry.push_back {σ : Type} (R : Registry σ) (k : Nat) (h : EntryHandler σ) :
    Registry σ :=
  { R with entry_handler := Function.update R.entry_handler k (R.entry_handler k ++ [h]) }

/-- `exit_handler.push_back(h)`. -/
def Registry.exit_push_back {σ : Type} (R : Registry σ) (h : EntryHandler σ) : Registry σ :=
  { R with exit_handler := R.exit_handler ++ [h] }

/-- The registries before `init_handlers`: every list is empty. -/
def Registry.empty {σ : Type} : Registry σ :=
  { entry_handler := fun _ => [], exit_handler := [] }

/-- `init_handlers`, statement by statement; the seven objects get the addresses 0 to 6
in the order of their allocation. -/
def init_handlers (M : MtraceMagic) {X : Type} (A : Analyses X) : Registry (State X) :=
  let R0 : Registry (State X) := Registry.empty
  let R1 := R0.push_front M.mtrace_entry_host (DefaultHostHandler.new M)
  let R2 := R1.push_front M.mtrace_entry_appdata DefaultAppDataHandler.new
  let R3 := R2.push_front M.mtrace_entry_fcall (DefaultFcallHandler.new M)
  let R4 := R3.push_front M.mtrace_entry_label (DefaultLabelHandler.new M)
  let dissys := A.DistinctSyscalls.new 4
  let R5 := R4.push_back M.mtrace_entry_access dissys
  let R6 := R5.push_back M.mtrace_entry_fcall dissys
  let R7 := R6.exit_push_back dissys
  let disops := A.DistinctOps.new 5
  let R8 := R7.exit_push_back disops
  let sersecs := A.SerialSections.new 6
  let R9 := R8.push_back M.mtrace_entry_lock sersecs
  R9.exit_push_back sersecs

/-- Analysis modules that keep no state and do nothing, to evaluate the definitions. -/
def no_analysis : Analyses Unit :=
  { DistinctSyscalls := { handle := fun _ s => .ok s.analysis, exit := fun s => .ok s.analysis }
    DistinctOps := { handle := fun _ s => .ok s.analysis, exit := fun s => .ok s.analysis }
    SerialSections := { handle := fun _ s => .ok s.analysis, exit := fun s => .ok s.analysis } }

/-! ## Vocabulary of the properties -/

/-- The analysis module returns from every call (it never aborts). -/
def AnalysisModule.returns {X : Type} (A : AnalysisModule X) : Prop :=
  (∀ entry s, ∃ x, A.handle entry s = .ok x) ∧ (∀ s, ∃ x, A.exit s = .ok x)

/-- None of the three analysis modules aborts. -/
def Analyses.returns {X : Type} (A : Analyses X) : Prop :=
  A.DistinctSyscalls.returns ∧ A.DistinctOps.returns ∧ A.SerialSections.returns

/-- The six-record log of the end-to-end scenario: every read returns 1; the fields the
scenario leaves open (CPU of the records other than Fcall, PC of the pause record, label
metadata) are 0 or empty; the name is "foo" with its terminating NUL. -/
def scenario_log (M : MtraceMagic) : gzFile :=
  [(1, .host { h := ⟨M.mtrace_entry_host, 0⟩, host_type := M.mtrace_access_all_cpu,
               access := ⟨[102, 111, 111, 0]⟩ }),
   (1, .appdata { h := ⟨M.mtrace_entry_appdata, 0⟩, u64 := 42 }),
   (1, .fcall { h := ⟨M.mtrace_entry_fcall, 0⟩, state := M.mtrace_start, pc := 0x100 }),
   (1, .fcall { h := ⟨M.mtrace_entry_fcall, 0⟩, state := M.mtrace_pause, pc := 0 }),
   (1, .label { h := ⟨M.mtrace_entry_label, 0⟩, label_type := 1, guest_addr := 0x2000,
                bytes := 16, str := [] }),
   (1, .label { h := ⟨M.mtrace_entry_label, 0⟩, label_type := 1, guest_addr := 0x2000,
                bytes := 0, str := [] })]

/-- The three sub-types `DefaultHostHandler` accepts. -/
def valid_host_type (M : MtraceMagic) (e : mtrace_host_entry) : Prop :=
  e.host_type = M.mtrace_access_all_cpu ∨ e.host_type = M.mtrace_call_clear_cpu ∨
    e.host_type = M.mtrace_call_set_cpu

instance (M : MtraceMagic) (e : mtrace_host_entry) : Decidable (valid_host_type M e) := by
  unfold valid_host_type
  infer_instance

/-- An `access_all_cpu` record whose name field is non-empty. -/
def named_access_all_cpu (M : MtraceMagic) (e : mtrace_host_entry) : Prop :=
  e.host_type = M.mtrace_access_all_cpu ∧ cstr e.access.str ≠ []

instance (M : MtraceMagic) (e : mtrace_host_entry) : Decidable (named_access_all_cpu M e) := by
  unfold named_access_all_cpu
  infer_instance

/-- A host record of the kind tag of `magic`, with the given sub-type and name bytes. -/
def host_record (host_type : Nat) (str : List Nat) : mtrace_host_entry :=
  { h := { type := 3, cpu := 0 }, host_type := host_type, access := { str := str } }

/-- A log of one AppData record (value 42) under the constants of `magic`. -/
def appdata_log : gzFile :=
  [(1, mtrace_entry.appdata { h := ⟨11, 0⟩, u64 := 42 })]

/-- An Fcall start record for CPU 0 at PC 256 under the constants of `magic`. -/
def fcall_start_record : mtrace_entry :=
  mtrace_entry.fcall { h := ⟨4, 0⟩, state := 1, pc := 256 }

/-- A label record of the kind tag of `magic`, of type 1, with the given address, byte
length and metadata. -/
def label_record (guest_addr bytes : Nat) (str : List Nat) : mtrace_label_entry :=
  { h := { type := 1, cpu := 0 }, label_type := 1, guest_addr := guest_addr, bytes := bytes,
    str := str }

/-- The four call states `DefaultFcallHandler` recognizes. -/
def recognized_state (M : MtraceMagic) (f : mtrace_fcall_entry) : Prop :=
  f.state = M.mtrace_resume ∨ f.state = M.mtrace_start ∨ f.state = M.mtrace_pause ∨
    f.state = M.mtrace_done

instance (M : MtraceMagic) (f : mtrace_fcall_entry) : Decidable (recognized_state M f) := by
  unfold recognized_state
  infer_instance

/-- The core state: the globals of `mscan.cc`, without the state of the analysis modules. -/
def State.core {X : Type} (s : State X) : State Unit :=
  { mtrace_enable := s.mtrace_enable
    mtrace_app_name := s.mtrace_app_name
    mtrace_summary := s.mtrace_summary
    mtrace_call_pc := s.mtrace_call_pc
    mtrace_label_map := s.mtrace_label_map
    analysis := () }

/-- The log without its access and lock records: a read that decoded a record (positive
result) whose kind tag is `mtrace_entry_access` or `mtrace_entry_lock` is dropped, every
other read is kept in place. -/
def remove_access_lock (M : MtraceMagic) (log : gzFile) : gzFile :=
  log.filter (fun p =>
    !(decide (p.1 > 0) &&
      (p.2.h.type == M.mtrace_entry_access || p.2.h.type == M.mtrace_entry_lock)))

/-- The precondition of the write `mtrace_call_pc[cpu]`: an Fcall record with a recognized
state carries a CPU index below `MAX_CPUS`. -/
def cpu_in_range (M : MtraceMagic) : mtrace_entry → Prop
  | .fcall f => recognized_state M f → f.h.cpu < M.MAX_CPUS
  | _ => True

instance (M : MtraceMagic) (entry : mtrace_entry) : Decidable (cpu_in_range M entry) := by
  cases entry <;> unfold cpu_in_range <;> infer_instance

/-- The two preconditions on the records a log delivers (the reads with a positive result):
the kind tag is below `mtrace_entry_num` and the CPU of an Fcall record is below
`MAX_CPUS`. -/
def indices_in_range (M : MtraceMagic) (log : gzFile) : Prop :=
  ∀ p ∈ log, p.1 > 0 → p.2.h.type < M.mtrace_entry_num ∧ cpu_in_range M p.2

instance (M : MtraceMagic) (log : gzFile) : Decidable (indices_in_range M log) := by
  unfold indices_in_range
  infer_instance

/-- The run neither stops with an out-of-range fault nor returns a state whose
`mtrace_call_pc` has another number of slots than `MAX_CPUS`. -/
def Run.in_range (M : MtraceMagic) {X : Type} (a : Run (State X)) : Prop :=
  (∀ t, a.result = .ok t → t.mtrace_call_pc.length = M.MAX_CPUS) ∧
    (∀ t, a.result ≠ .stop .out_of_range t)

/-- Two runs from states with the same core: if the first returns, the second, if it
returns, returns with the same core, and it does return when `returns` holds. -/
def Run.core_determined (returns : Prop) {X : Type} (a b : Run (State X)) : Prop :=
  ∀ t, a.result = .ok t →
    (∀ t', b.result = .ok t' → t.core = t'.core) ∧ (returns → ∃ t', b.result = .ok t')

/-- The analysis module never stops the process with an out-of-range fault. -/
def AnalysisModule.in_range {X : Type} (A : AnalysisModule X) : Prop :=
  (∀ entry s x, A.handle entry s ≠ .stop .out_of_range x) ∧
    (∀ s x, A.exit s ≠ .stop .out_of_range x)

/-- None of the three analysis modules stops with an out-of-range fault. -/
def Analyses.in_range {X : Type} (A : Analyses X) : Prop :=
  A.DistinctSyscalls.in_range ∧ A.DistinctOps.in_range ∧ A.SerialSections.in_range

/-- An Fcall pause record for CPU 2 under the constants of `magic`. -/
def fcall_pause_record : mtrace_fcall_entry :=
  { h := ⟨4, 2⟩, state := 4, pc := 0 }

/-- A log under the constants of `magic` in which an access record and a lock record
surround an AppData record and an Fcall start record. -/
def mixed_log : gzFile :=
  [(1, mtrace_entry.other ⟨2, 0⟩ [1]),
   (1, mtrace_entry.appdata { h := ⟨11, 0⟩, u64 := 42 }),
   (1, mtrace_entry.other ⟨7, 1⟩ [2]),
   (1, mtrace_entry.fcall { h := ⟨4, 0⟩, state := 1, pc := 256 })]

/-! ## Strings -/

theorem cstr_eq_nil_iff (a : List Nat) : cstr a = [] ↔ a.headD 0 = 0 := by
  cases a with
  | nil => simp [cstr]
  | cons b t =>
    by_cases hb : b = 0
    · simp [cstr, List.takeWhile_cons, hb]
    · simp [cstr, List.takeWhile_cons, hb]

theorem cstr_append_zeros (a : List Nat) (k : Nat) :
    cstr (cstr a ++ List.replicate k 0) = cstr a := by
  induction a with
  | nil => cases k <;> simp [cstr, List.replicate, List.takeWhile]
  | cons b t ih =>
    by_cases hb : b = 0
    · subst hb
      cases k <;> simp [cstr, List.replicate, List.takeWhile_cons]
    · have ih' : List.takeWhile (fun b => b != 0)
          (List.takeWhile (fun b => b != 0) t ++ List.replicate k 0)
          = List.takeWhile (fun b => b != 0) t := ih
      simp [cstr, List.takeWhile_cons, hb, ih']

theorem cstr_strncpy (src : List Nat) (n : Nat) (hfit : (cstr src).length ≤ n) :
    cstr (strncpy src n) = cstr src := by
  unfold strncpy
  rw [List.take_of_length_le hfit]
  exact cstr_append_zeros src _

theorem strncpy_headD_of_empty (src : List Nat) (n : Nat) (h : cstr src = []) :
    (strncpy src n).headD 0 = 0 := by
  unfold strncpy
  rw [h]
  cases n <;> simp [List.replicate]

theorem strncpy_headD_of_nonempty (src : List Nat) (n : Nat) (hn : 0 < n)
    (h : cstr src ≠ []) : (strncpy src n).headD 0 ≠ 0 := by
  cases src with
  | nil => simp [cstr] at h
  | cons b t =>
    have hb : b ≠ 0 := by
      intro hb
      apply h
      simp [cstr, List.takeWhile_cons, hb]
    obtain ⟨m, rfl⟩ : ∃ m, n = m + 1 := ⟨n - 1, by omega⟩
    simp [strncpy, cstr, List.takeWhile_cons, hb]

/-! ## DefaultHostHandler over a sequence of host records -/

theorem host_handle_cpu (M : MtraceMagic) {X : Type} (e : mtrace_host_entry) (s : State X)
    (hc : e.host_type = M.mtrace_call_clear_cpu ∨ e.host_type = M.mtrace_call_set_cpu) :
    DefaultHostHandler.handle M (mtrace_entry.host e) s = .ok s := by
  simp only [DefaultHostHandler.handle]
  rw [if_pos hc]

theorem host_handle_access (M : MtraceMagic) {X : Type} (e : mtrace_host_entry) (s : State X)
    (hc : ¬ (e.host_type = M.mtrace_call_clear_cpu ∨ e.host_type = M.mtrace_call_set_cpu))
    (ha : e.host_type = M.mtrace_access_all_cpu) :
    DefaultHostHandler.handle M (mtrace_entry.host e) s =
      .ok { s with
        mtrace_app_name :=
          if s.mtrace_app_name.headD 0 = 0 then strncpy e.access.str sizeof_mtrace_app_name
          else s.mtrace_app_name
        mtrace_enable := e } := by
  simp only [DefaultHostHandler.handle]
  rw [if_neg hc, if_neg (not_not.2 ha)]

theorem host_handle_bad (M : MtraceMagic) {X : Type} (e : mtrace_host_entry) (s : State X)
    (hv : ¬ valid_host_type M e) :
    DefaultHostHandler.handle M (mtrace_entry.host e) s = .stop .die s := by
  have hc : ¬ (e.host_type = M.mtrace_call_clear_cpu ∨ e.host_type = M.mtrace_call_set_cpu) :=
    fun h => hv (Or.inr h)
  have ha : e.host_type ≠ M.mtrace_access_all_cpu := fun h => hv (Or.inl h)
  simp only [DefaultHostHandler.handle]
  rw [if_neg hc, if_pos ha]

theorem host_run_unnamed (M : MtraceMagic) {X : Type} (es : List mtrace_host_entry) :
    ∀ s : State X, s.mtrace_app_name.headD 0 = 0 →
      (∀ e ∈ es, valid_host_type M e) → (∀ e ∈ es, ¬ named_access_all_cpu M e) →
      ∃ s', handle_all (DefaultHostHandler.handle M) (es.map mtrace_entry.host) s = .ok s' ∧
        s'.mtrace_app_name.headD 0 = 0 := by
  induction es with
  | nil => intro s h0 _ _; exact ⟨s, rfl, h0⟩
  | cons e es ih =>
    intro s h0 hv hn
    have hve := hv e (List.mem_cons_self _ _)
    have hne := hn e (List.mem_cons_self _ _)
    have hv' : ∀ e ∈ es, valid_host_type M e := fun x hx => hv x (List.mem_cons_of_mem _ hx)
    have hn' : ∀ e ∈ es, ¬ named_access_all_cpu M e :=
      fun x hx => hn x (List.mem_cons_of_mem _ hx)
    by_cases hc : e.host_type = M.mtrace_call_clear_cpu ∨ e.host_type = M.mtrace_call_set_cpu
    · simp only [List.map_cons, handle_all, host_handle_cpu M e s hc]
      exact ih s h0 hv' hn'
    · have ha : e.host_type = M.mtrace_access_all_cpu := by
        rcases hve with h | h | h
        · exact h
        · exact absurd (Or.inl h) hc
        · exact absurd (Or.inr h) hc
      have hempty : cstr e.access.str = [] := by
        by_contra hne'
        exact hne ⟨ha, hne'⟩
      simp only [List.map_cons, handle_all, host_handle_access M e s hc ha, if_pos h0]
      exact ih _ (strncpy_headD_of_empty _ _ hempty) hv' hn'

theorem host_run_named (M : MtraceMagic) {X : Type} (es : List mtrace_host_entry) :
    ∀ s : State X, s.mtrace_app_name.headD 0 ≠ 0 →
      (∀ e ∈ es, valid_host_type M e) →
      ∃ s', handle_all (DefaultHostHandler.handle M) (es.map mtrace_entry.host) s = .ok s' ∧
        s'.mtrace_app_name = s.mtrace_app_name := by
  induction es with
  | nil => intro s _ _; exact ⟨s, rfl, rfl⟩
  | cons e es ih =>
    intro s h0 hv
    have hve := hv e (List.mem_cons_self _ _)
    have hv' : ∀ e ∈ es, valid_host_type M e := fun x hx => hv x (List.mem_cons_of_mem _ hx)
    by_cases hc : e.host_type = M.mtrace_call_clear_cpu ∨ e.host_type = M.mtrace_call_set_cpu
    · simp only [List.map_cons, handle_all, host_handle_cpu M e s hc]
      exact ih s h0 hv'
    · have ha : e.host_type = M.mtrace_access_all_cpu := by
        rcases hve with h | h | h
        · exact h
        · exact absurd (Or.inl h) hc
        · exact absurd (Or.inr h) hc
      simp only [List.map_cons, handle_all, host_handle_access M e s hc ha, if_neg h0]
      exact ih _ h0 hv'

theorem handle_all_append {σ : Type} (handle : mtrace_entry → σ → Outcome σ)
    (l1 l2 : List mtrace_entry) (s s1 : σ) (h : handle_all handle l1 s = .ok s1) :
    handle_all handle (l1 ++ l2) s = handle_all handle l2 s1 := by
  induction l1 generalizing s with
  | nil =>
    simp only [handle_all] at h
    cases h
    rfl
  | cons e l1 ih =>
    simp only [List.cons_append, handle_all] at h ⊢
    cases hstep : handle e s with
    | ok s2 =>
      rw [hstep] at h
      exact ih s2 h
    | stop f s2 =>
      rw [hstep] at h
      cases h

/-! ## Properties of the default handlers -/

/-- C1: for every sequence of Host records with accepted sub-types handled by
DefaultHostHandler from a state whose application name is empty, if `r` is the first
access_all_cpu record of the sequence with a non-empty name (one that fits the 32 bytes of
`mtrace_app_name`), the run succeeds and the application name after it is the name of `r`,
whatever the records after `r` carry. -/
theorem C1_app_name_is_first_name (M : MtraceMagic) {X : Type}
    (pre post : List mtrace_host_entry) (r : mtrace_host_entry) (s : State X)
    (hM : M.WF)
    (hempty : cstr s.mtrace_app_name = [])
    (hvalid : ∀ e ∈ pre ++ r :: post, valid_host_type M e)
    (hfirst : ∀ e ∈ pre, ¬ named_access_all_cpu M e)
    (hr : named_access_all_cpu M r)
    (hfit : (cstr r.access.str).length ≤ sizeof_mtrace_app_name) :
    ∃ s', handle_all (DefaultHostHandler.handle M)
        ((pre ++ r :: post).map mtrace_entry.host) s = .ok s' ∧
      cstr s'.mtrace_app_name = cstr r.access.str := by
  have h0 : s.mtrace_app_name.headD 0 = 0 := (cstr_eq_nil_iff _).1 hempty
  obtain ⟨s1, hrun1, h1⟩ := host_run_unnamed M pre s h0
    (fun e he => hvalid e (List.mem_append_left _ he)) hfirst
  have hnc : ¬ (r.host_type = M.mtrace_call_clear_cpu ∨ r.host_type = M.mtrace_call_set_cpu) := by
    have hd := hM.2.2.1
    simp only [List.nodup_cons, List.mem_cons, List.mem_singleton, not_or, List.not_mem_nil,
      or_false] at hd
    rw [hr.1]
    exact not_or.2 hd.1
  have hstep : DefaultHostHandler.handle M (mtrace_entry.host r) s1 =
      .ok { s1 with mtrace_app_name := strncpy r.access.str sizeof_mtrace_app_name,
                    mtrace_enable := r } := by
    rw [host_handle_access M r s1 hnc hr.1, if_pos h1]
  obtain ⟨s', hrun2, h2⟩ := host_run_named M post
    { s1 with mtrace_app_name := strncpy r.access.str sizeof_mtrace_app_name,
              mtrace_enable := r }
    (strncpy_headD_of_nonempty _ _ (by decide) hr.2)
    (fun e he => hvalid e (List.mem_append_right _ (List.mem_cons_of_mem _ he)))
  refine ⟨s', ?_, ?_⟩
  · rw [List.map_append, handle_all_append _ _ _ s s1 hrun1]
    simp only [List.map_cons, handle_all, hstep]
    exact hrun2
  · rw [h2]
    exact cstr_strncpy _ _ hfit

/-- C1 evaluated: an access_all_cpu record without a name, then "foo", then "bar", from
the initial state: the application name is "foo". -/
theorem C1_app_name_is_first_name_witness :
    ∃ s', handle_all (DefaultHostHandler.handle magic)
        (([host_record 1 [0, 7]] ++ host_record 1 [102, 111, 111, 0] ::
          [host_record 1 [98, 97, 114, 0], host_record 2 []]).map
          mtrace_entry.host) (State.init magic ()) = .ok s' ∧
      cstr s'.mtrace_app_name = cstr [102, 111, 111, 0] :=
  C1_app_name_is_first_name magic [host_record 1 [0, 7]]
    [host_record 1 [98, 97, 114, 0], host_record 2 []] (host_record 1 [102, 111, 111, 0])
    (State.init magic ()) (by decide) (by decide) (by decide) (by decide) (by decide)
    (by decide)

/-- C2: for every non-empty sequence of AppData records (any records `pre`, then a last
record `a`) handled in order by DefaultAppDataHandler from any state, the run succeeds and
`mtrace_summary.app_ops` is the `u64` of the last record, whatever the initial counter and
the earlier values were. -/
theorem C2_app_ops_is_last_value {X : Type} (pre : List mtrace_appdata_entry)
    (a : mtrace_appdata_entry) (s : State X) :
    ∃ s', handle_all DefaultAppDataHandler.handle
        ((pre ++ [a]).map mtrace_entry.appdata) s = .ok s' ∧
      s'.mtrace_summary.app_ops = a.u64 := by
  induction pre generalizing s with
  | nil => exact ⟨_, rfl, rfl⟩
  | cons b pre ih =>
    obtain ⟨s', hrun, hval⟩ :=
      ih { s with mtrace_summary := { s.mtrace_summary with app_ops := b.u64 } }
    exact ⟨s', hrun, hval⟩

theorem set_call_pc_ok {X : Type} (s : State X) (cpu v : Nat)
    (hc : cpu < s.mtrace_call_pc.length) :
    set_call_pc s cpu v = .ok { s with mtrace_call_pc := s.mtrace_call_pc.set cpu v } := by
  unfold set_call_pc
  rw [if_pos hc]

theorem set_call_pc_twice {X : Type} (s s' : State X) (cpu v : Nat)
    (h : set_call_pc s cpu v = .ok s') : set_call_pc s' cpu v = .ok s' := by
  unfold set_call_pc at h
  by_cases hc : cpu < s.mtrace_call_pc.length
  · rw [if_pos hc] at h
    cases h
    simp [set_call_pc, hc, List.set_set]
  · rw [if_neg hc] at h
    cases h

theorem magic_states_distinct (M : MtraceMagic) (hM : M.WF) :
    M.mtrace_start ≠ M.mtrace_done ∧ M.mtrace_start ≠ M.mtrace_resume ∧
    M.mtrace_start ≠ M.mtrace_pause ∧ M.mtrace_done ≠ M.mtrace_resume ∧
    M.mtrace_done ≠ M.mtrace_pause ∧ M.mtrace_resume ≠ M.mtrace_pause := by
  have hd := hM.2.2.2
  simp only [List.nodup_cons, List.mem_cons, List.mem_singleton, not_or, List.not_mem_nil,
    or_false] at hd
  tauto

/-- The value `DefaultFcallHandler` stores for a recognized call state: the PC of the
record for `resume` and `start`, 0 for `pause` and `done`. -/
theorem fcall_handle_recognized (M : MtraceMagic) {X : Type} (f : mtrace_fcall_entry)
    (s : State X) (hM : M.WF) :
    ((f.state = M.mtrace_start ∨ f.state = M.mtrace_resume) →
      DefaultFcallHandler.handle M (mtrace_entry.fcall f) s = set_call_pc s f.h.cpu f.pc) ∧
    ((f.state = M.mtrace_pause ∨ f.state = M.mtrace_done) →
      DefaultFcallHandler.handle M (mtrace_entry.fcall f) s = set_call_pc s f.h.cpu 0) := by
  obtain ⟨h1, h2, h3, h4, h5, h6⟩ := magic_states_distinct M hM
  constructor
  · rintro (h | h)
    · simp only [DefaultFcallHandler.handle, h, if_neg h2, if_true]
    · simp only [DefaultFcallHandler.handle, h, if_true]
  · rintro (h | h)
    · simp only [DefaultFcallHandler.handle, h, if_neg h6.symm, if_neg h3.symm, if_true]
    · simp only [DefaultFcallHandler.handle, h, if_neg h4, if_neg h1.symm, if_neg h5,
        if_true]

theorem fcall_handle_twice (M : MtraceMagic) {X : Type} (entry : mtrace_entry)
    (s s' : State X) (h : DefaultFcallHandler.handle M entry s = .ok s') :
    DefaultFcallHandler.handle M entry s' = .ok s' := by
  cases entry with
  | fcall f =>
    simp only [DefaultFcallHandler.handle] at h ⊢
    split_ifs at h ⊢
    · exact set_call_pc_twice _ _ _ _ h
    · exact set_call_pc_twice _ _ _ _ h
    · exact set_call_pc_twice _ _ _ _ h
    · exact set_call_pc_twice _ _ _ _ h
  | host e => simp [DefaultFcallHandler.handle] at h
  | appdata a => simp [DefaultFcallHandler.handle] at h
  | label l => simp [DefaultFcallHandler.handle] at h
  | other h0 q => simp [DefaultFcallHandler.handle] at h

/-- C3: for every Fcall record `f` whose CPU indexes a slot of `mtrace_call_pc` and every
prior state: if the record's state is start or resume, DefaultFcallHandler succeeds and slot
`f.h.cpu` then reads the record's PC; if it is pause or done, the handler succeeds and the
slot reads 0; in both cases whatever the slot held before; and handling the record again in
the state reached gives that same state. -/
theorem C3_fcall_slot (M : MtraceMagic) {X : Type} (f : mtrace_fcall_entry) (s : State X)
    (hM : M.WF) (hc : f.h.cpu < s.mtrace_call_pc.length) :
    ((f.state = M.mtrace_start ∨ f.state = M.mtrace_resume) →
      ∃ s', DefaultFcallHandler.handle M (mtrace_entry.fcall f) s = .ok s' ∧
        s'.mtrace_call_pc[f.h.cpu]? = some f.pc) ∧
    ((f.state = M.mtrace_pause ∨ f.state = M.mtrace_done) →
      ∃ s', DefaultFcallHandler.handle M (mtrace_entry.fcall f) s = .ok s' ∧
        s'.mtrace_call_pc[f.h.cpu]? = some 0) ∧
    (∀ s', DefaultFcallHandler.handle M (mtrace_entry.fcall f) s = .ok s' →
      DefaultFcallHandler.handle M (mtrace_entry.fcall f) s' = .ok s') := by
  have hrec := fcall_handle_recognized M f s hM
  refine ⟨fun h => ?_, fun h => ?_, fun s' h => fcall_handle_twice M _ s s' h⟩
  · rw [hrec.1 h, set_call_pc_ok s _ _ hc]
    exact ⟨_, rfl, by simp [hc]⟩
  · rw [hrec.2 h, set_call_pc_ok s _ _ hc]
    exact ⟨_, rfl, by simp [hc]⟩

/-- C3 evaluated at a start record for CPU 1 with PC 256, from the initial state. -/
theorem C3_fcall_slot_witness :
    ((1 = magic.mtrace_start ∨ 1 = magic.mtrace_resume) →
      ∃ s', DefaultFcallHandler.handle magic
          (mtrace_entry.fcall { h := ⟨4, 1⟩, state := 1, pc := 256 })
          (State.init magic ()) = .ok s' ∧
        s'.mtrace_call_pc[1]? = some 256) ∧
    ((1 = magic.mtrace_pause ∨ 1 = magic.mtrace_done) →
      ∃ s', DefaultFcallHandler.handle magic
          (mtrace_entry.fcall { h := ⟨4, 1⟩, state := 1, pc := 256 })
          (State.init magic ()) = .ok s' ∧
        s'.mtrace_call_pc[1]? = some 0) ∧
    (∀ s', DefaultFcallHandler.handle magic
          (mtrace_entry.fcall { h := ⟨4, 1⟩, state := 1, pc := 256 })
          (State.init magic ()) = .ok s' →
      DefaultFcallHandler.handle magic
          (mtrace_entry.fcall { h := ⟨4, 1⟩, state := 1, pc := 256 }) s' = .ok s') :=
  C3_fcall_slot magic { h := ⟨4, 1⟩, state := 1, pc := 256 } (State.init magic ())
    (by decide) (by decide)

/-! ## DefaultLabelHandler and the Label Table -/

theorem entries_at_rem_label (m : MtraceLabelMap) (l : mtrace_label_entry) :
    (m.rem_label l).entries_at l.guest_addr = [] := by
  simp only [MtraceLabelMap.rem_label, MtraceLabelMap.entries_at, List.filter_filter]
  rw [List.filter_eq_nil_iff]
  intro x _
  by_cases hx : x.guest_addr = l.guest_addr <;> simp [hx]

theorem entries_at_add_label (m : MtraceLabelMap) (l : mtrace_label_entry) :
    (m.add_label l).entries_at l.guest_addr = [l] := by
  have h := entries_at_rem_label m l
  simp only [MtraceLabelMap.rem_label, MtraceLabelMap.entries_at] at h
  simp [MtraceLabelMap.add_label, MtraceLabelMap.entries_at, List.filter_cons, h]

theorem label_handle_valid (M : MtraceMagic) {X : Type} (l : mtrace_label_entry)
    (s : State X) (ht : 0 < l.label_type ∧ l.label_type < M.mtrace_label_end) :
    DefaultLabelHandler.handle M (mtrace_entry.label l) s =
      if l.bytes ≠ 0 then .ok { s with mtrace_label_map := s.mtrace_label_map.add_label l }
      else .ok { s with mtrace_label_map := s.mtrace_label_map.rem_label l } := by
  have hbad : ¬ (l.label_type = 0 ∨ l.label_type ≥ M.mtrace_label_end) := by omega
  simp only [DefaultLabelHandler.handle]
  rw [if_neg hbad]

/-- C4: for every address `A`, every state and every two Label records at `A` with valid
label_type, the first with nonzero byte length: DefaultLabelHandler handles both, and then
(1) if the second has byte length 0 the Label Table has no entry at `A`; (2) if the second
has nonzero byte length the Label Table has exactly one entry at `A`, the second record. -/
theorem C4_label_add_then_remove_or_overwrite (M : MtraceMagic) {X : Type} (A : Nat)
    (l1 l2 : mtrace_label_entry) (s : State X)
    (ht1 : 0 < l1.label_type ∧ l1.label_type < M.mtrace_label_end)
    (ht2 : 0 < l2.label_type ∧ l2.label_type < M.mtrace_label_end)
    (ha1 : l1.guest_addr = A) (ha2 : l2.guest_addr = A) (hb1 : l1.bytes ≠ 0) :
    ∃ s1 s2, DefaultLabelHandler.handle M (mtrace_entry.label l1) s = .ok s1 ∧
      DefaultLabelHandler.handle M (mtrace_entry.label l2) s1 = .ok s2 ∧
      (l2.bytes = 0 → s2.mtrace_label_map.entries_at A = []) ∧
      (l2.bytes ≠ 0 → s2.mtrace_label_map.entries_at A = [l2]) := by
  subst ha2
  have h1 : DefaultLabelHandler.handle M (mtrace_entry.label l1) s =
      .ok { s with mtrace_label_map := s.mtrace_label_map.add_label l1 } := by
    rw [label_handle_valid M l1 s ht1, if_pos hb1]
  by_cases hb2 : l2.bytes = 0
  · refine ⟨_, { s with mtrace_label_map := (s.mtrace_label_map.add_label l1).rem_label l2 },
      h1, ?_, fun _ => ?_, fun h => absurd hb2 h⟩
    · rw [label_handle_valid M l2 _ ht2, if_neg (not_not.2 hb2)]
    · exact entries_at_rem_label _ l2
  · refine ⟨_, { s with mtrace_label_map := (s.mtrace_label_map.add_label l1).add_label l2 },
      h1, ?_, fun h => absurd h hb2, fun _ => ?_⟩
    · rw [label_handle_valid M l2 _ ht2, if_pos hb2]
    · exact entries_at_add_label _ l2

/-- C4 evaluated at address 8192 on a table that already holds a label there: a 16-byte
label followed by a 32-byte label. -/
theorem C4_label_add_then_remove_or_overwrite_witness :
    ∃ s1 s2, DefaultLabelHandler.handle magic (mtrace_entry.label (label_record 8192 16 [97]))
        { State.init magic () with mtrace_label_map := [label_record 8192 8 [122]] } = .ok s1 ∧
      DefaultLabelHandler.handle magic (mtrace_entry.label (label_record 8192 32 [98])) s1
        = .ok s2 ∧
      ((label_record 8192 32 [98]).bytes = 0 → s2.mtrace_label_map.entries_at 8192 = []) ∧
      ((label_record 8192 32 [98]).bytes ≠ 0 →
        s2.mtrace_label_map.entries_at 8192 = [label_record 8192 32 [98]]) :=
  C4_label_add_then_remove_or_overwrite magic 8192 (label_record 8192 16 [97])
    (label_record 8192 32 [98])
    { State.init magic () with mtrace_label_map := [label_record 8192 8 [122]] }
    (by decide) (by decide) (by decide) (by decide) (by decide)

/-- C10: on a Label record, DefaultLabelHandler stops the process by `die` if and only if
the record's label_type is 0 or at least mtrace_label_end; and when the label_type is such,
the handler stops with the state, the Label Table included, exactly as it was before the
call (nothing was added or removed, and the call did not return). -/
theorem C10_label_bad_type_is_fatal (M : MtraceMagic) {X : Type} (l : mtrace_label_entry)
    (s : State X) :
    ((∃ s', DefaultLabelHandler.handle M (mtrace_entry.label l) s = .stop .die s') ↔
      (l.label_type = 0 ∨ l.label_type ≥ M.mtrace_label_end)) ∧
    ((l.label_type = 0 ∨ l.label_type ≥ M.mtrace_label_end) →
      DefaultLabelHandler.handle M (mtrace_entry.label l) s = .stop .die s) := by
  have hbad : (l.label_type = 0 ∨ l.label_type ≥ M.mtrace_label_end) →
      DefaultLabelHandler.handle M (mtrace_entry.label l) s = .stop .die s := by
    intro h
    simp only [DefaultLabelHandler.handle]
    rw [if_pos h]
  refine ⟨⟨?_, fun h => ⟨s, hbad h⟩⟩, hbad⟩
  rintro ⟨s', hs'⟩
  by_contra hgood
  simp only [DefaultLabelHandler.handle] at hs'
  rw [if_neg hgood] at hs'
  split_ifs at hs'

/-! ## Sequencing of runs -/

theorem Run.andThen_of_ok {σ : Type} (a : Run σ) (k : σ → Run σ) (s : σ)
    (h : a.result = .ok s) :
    a.andThen k = { calls := a.calls ++ (k s).calls, result := (k s).result } := by
  simp only [Run.andThen, h]

theorem Run.andThen_of_stop {σ : Type} (a : Run σ) (k : σ → Run σ) (f : Fault) (s : σ)
    (h : a.result = .stop f s) :
    a.andThen k = { calls := a.calls, result := .stop f s } := by
  simp only [Run.andThen, h]

theorem Run.andThen_assoc {σ : Type} (a : Run σ) (k k' : σ → Run σ) :
    (a.andThen k).andThen k' = a.andThen (fun s => (k s).andThen k') := by
  cases ha : a.result with
  | ok s =>
    cases hk : (k s).result with
    | ok s' => simp only [Run.andThen, ha, hk, List.append_assoc]
    | stop f s' => simp only [Run.andThen, ha, hk]
  | stop f s => simp only [Run.andThen, ha]

theorem Run.ok_andThen {σ : Type} (k : σ → Run σ) (s : σ) :
    ({ calls := [], result := .ok s } : Run σ).andThen k = k s := by
  simp only [Run.andThen, List.nil_append]

theorem Run.andThen_result_ok {σ : Type} (a : Run σ) (k : σ → Run σ) (s' : σ)
    (h : (a.andThen k).result = .ok s') :
    ∃ s, a.result = .ok s ∧ (k s).result = .ok s' := by
  cases ha : a.result with
  | ok s =>
    rw [Run.andThen_of_ok a k s ha] at h
    exact ⟨s, rfl, h⟩
  | stop f s =>
    rw [Run.andThen_of_stop a k f s ha] at h
    cases h

theorem Run.andThen_calls_filter {σ : Type} (a : Run σ) (k : σ → Run σ) (p : Call → Bool) :
    (a.andThen k).calls.filter p =
      a.calls.filter p ++
        (match a.result with
          | .ok s => (k s).calls.filter p
          | .stop _ _ => []) := by
  cases ha : a.result with
  | ok s => rw [Run.andThen_of_ok a k s ha]; simp only [List.filter_append]
  | stop f s => rw [Run.andThen_of_stop a k f s ha]; simp only [List.append_nil]

theorem run_handle_append {σ : Type} (i : Nat) (entry : mtrace_entry)
    (l1 l2 : List (EntryHandler σ)) (s : σ) :
    run_handle i entry (l1 ++ l2) s =
      (run_handle i entry l1 s).andThen (run_handle i entry l2) := by
  induction l1 generalizing s with
  | nil => simp only [List.nil_append, run_handle, Run.ok_andThen]
  | cons h l1 ih =>
    simp only [List.cons_append, run_handle, Run.andThen_assoc]
    congr 1
    funext s1
    exact ih s1

theorem run_handle_cons {σ : Type} (i : Nat) (entry : mtrace_entry) (h : EntryHandler σ)
    (l : List (EntryHandler σ)) (s : σ) :
    run_handle i entry (h :: l) s = (call_handle i entry h s).andThen (run_handle i entry l) :=
  rfl

theorem scan_cons_pos {σ : Type} (M : MtraceMagic) (R : Registry σ) (i : Nat) (r : Int)
    (entry : mtrace_entry) (log : gzFile) (s : σ) (hr : r > 0) :
    scan M R i ((r, entry) :: log) s =
      (dispatch M R i entry s).andThen (scan M R (i + 1) log) := by
  simp only [scan, if_pos hr]

theorem scan_cons_nonpos {σ : Type} (M : MtraceMagic) (R : Registry σ) (i : Nat) (r : Int)
    (entry : mtrace_entry) (log : gzFile) (s : σ) (hr : ¬ r > 0) :
    scan M R i ((r, entry) :: log) s = { calls := [], result := .ok s } := by
  simp only [scan, if_neg hr]

theorem scan_append {σ : Type} (M : MtraceMagic) (R : Registry σ) (pre rest : gzFile)
    (hpre : ∀ p ∈ pre, p.1 > 0) :
    ∀ (i : Nat) (s : σ), scan M R i (pre ++ rest) s =
      (scan M R i pre s).andThen (scan M R (i + pre.length) rest) := by
  induction pre with
  | nil =>
    intro i s
    simp only [List.nil_append, scan, Run.ok_andThen, List.length_nil, Nat.add_zero]
  | cons p pre ih =>
    intro i s
    obtain ⟨r, entry⟩ := p
    have hr : r > 0 := hpre (r, entry) (List.mem_cons_self _ _)
    have hpre' : ∀ p ∈ pre, p.1 > 0 := fun q hq => hpre q (List.mem_cons_of_mem _ hq)
    simp only [List.cons_append, scan_cons_pos M R i r entry _ s hr, Run.andThen_assoc,
      List.length_cons]
    congr 1
    funext s1
    rw [ih hpre' (i + 1) s1]
    have hi : i + 1 + pre.length = i + (pre.length + 1) := by omega
    rw [hi]

/-! ## The calls a run makes -/

theorem run_handle_calls {σ : Type} (i : Nat) (entry : mtrace_entry)
    (l : List (EntryHandler σ)) :
    ∀ s : σ, ∃ n, n ≤ l.length ∧
      (run_handle i entry l s).calls = (l.take n).map (fun h => Call.handle h.id i) ∧
      (∀ s', (run_handle i entry l s).result = .ok s' → n = l.length) := by
  induction l with
  | nil =>
    intro s
    exact ⟨0, Nat.le_refl _, rfl, fun _ _ => rfl⟩
  | cons h l ih =>
    intro s
    rw [run_handle_cons]
    cases hh : h.handle entry s with
    | ok s1 =>
      obtain ⟨n, hn, hcalls, hok⟩ := ih s1
      refine ⟨n + 1, by simp only [List.length_cons]; omega, ?_, ?_⟩
      · rw [Run.andThen_of_ok _ _ s1 (by simpa [call_handle] using hh)]
        simp only [call_handle, List.singleton_append, List.take_succ_cons, List.map_cons, hcalls]
      · intro s' hs'
        rw [Run.andThen_of_ok _ _ s1 (by simpa [call_handle] using hh)] at hs'
        simp only [List.length_cons, hok s' hs']
    | stop f s1 =>
      refine ⟨1, by simp only [List.length_cons]; omega, ?_, ?_⟩
      · rw [Run.andThen_of_stop _ _ f s1 (by simpa [call_handle] using hh)]
        simp only [call_handle, List.take_succ_cons, List.take_zero, List.map_cons, List.map_nil]
      · intro s' hs'
        rw [Run.andThen_of_stop _ _ f s1 (by simpa [call_handle] using hh)] at hs'
        cases hs'

theorem run_exit_calls {σ : Type} (l : List (EntryHandler σ)) :
    ∀ s : σ, ∃ n, n ≤ l.length ∧
      (run_exit l s).calls = (l.take n).map (fun h => Call.exit h.id) ∧
      (∀ s', (run_exit l s).result = .ok s' → n = l.length) := by
  induction l with
  | nil =>
    intro s
    exact ⟨0, Nat.le_refl _, rfl, fun _ _ => rfl⟩
  | cons h l ih =>
    intro s
    have hcons : run_exit (h :: l) s = (call_exit h s).andThen (run_exit l) := rfl
    rw [hcons]
    cases hh : h.exit s with
    | ok s1 =>
      obtain ⟨n, hn, hcalls, hok⟩ := ih s1
      refine ⟨n + 1, by simp only [List.length_cons]; omega, ?_, ?_⟩
      · rw [Run.andThen_of_ok _ _ s1 (by simpa [call_exit] using hh)]
        simp only [call_exit, List.singleton_append, List.take_succ_cons, List.map_cons, hcalls]
      · intro s' hs'
        rw [Run.andThen_of_ok _ _ s1 (by simpa [call_exit] using hh)] at hs'
        simp only [List.length_cons, hok s' hs']
    | stop f s1 =>
      refine ⟨1, by simp only [List.length_cons]; omega, ?_, ?_⟩
      · rw [Run.andThen_of_stop _ _ f s1 (by simpa [call_exit] using hh)]
        simp only [call_exit, List.take_succ_cons, List.take_zero, List.map_cons, List.map_nil]
      · intro s' hs'
        rw [Run.andThen_of_stop _ _ f s1 (by simpa [call_exit] using hh)] at hs'
        cases hs'

theorem dispatch_calls {σ : Type} (M : MtraceMagic) (R : Registry σ) (i : Nat)
    (entry : mtrace_entry) (s : σ) :
    ∀ c ∈ (dispatch M R i entry s).calls, ∃ id, c = Call.handle id i := by
  intro c hc
  unfold dispatch at hc
  split_ifs at hc
  · obtain ⟨n, _, hcalls, _⟩ := run_handle_calls i entry (R.entry_handler entry.h.type) s
    rw [hcalls, List.mem_map] at hc
    obtain ⟨h, _, rfl⟩ := hc
    exact ⟨h.id, rfl⟩
  · simp at hc

theorem Run.andThen_calls_mem {σ : Type} (a : Run σ) (k : σ → Run σ) (c : Call)
    (hc : c ∈ (a.andThen k).calls) : c ∈ a.calls ∨ ∃ s, a.result = .ok s ∧ c ∈ (k s).calls := by
  cases ha : a.result with
  | ok s =>
    rw [Run.andThen_of_ok a k s ha, List.mem_append] at hc
    exact hc.imp id (fun h => ⟨s, rfl, h⟩)
  | stop f s =>
    rw [Run.andThen_of_stop a k f s ha] at hc
    exact Or.inl hc

theorem scan_calls {σ : Type} (M : MtraceMagic) (R : Registry σ) (log : gzFile) :
    ∀ (i : Nat) (s : σ), ∀ c ∈ (scan M R i log s).calls,
      ∃ id j, c = Call.handle id j ∧ i ≤ j ∧ j < i + log.length := by
  induction log with
  | nil =>
    intro i s c hc
    simp [scan] at hc
  | cons p log ih =>
    intro i s c hc
    obtain ⟨r, entry⟩ := p
    by_cases hr : r > 0
    · rw [scan_cons_pos M R i r entry log s hr] at hc
      rcases Run.andThen_calls_mem _ _ c hc with h | ⟨s1, _, h⟩
      · obtain ⟨id, rfl⟩ := dispatch_calls M R i entry s c h
        exact ⟨id, i, rfl, Nat.le_refl _, by simp only [List.length_cons]; omega⟩
      · obtain ⟨id, j, rfl, h1, h2⟩ := ih (i + 1) s1 c h
        exact ⟨id, j, rfl, by omega, by simp only [List.length_cons]; omega⟩
    · rw [scan_cons_nonpos M R i r entry log s hr] at hc
      simp at hc

theorem Run.andThen_ok_right {σ : Type} (a : Run σ) :
    a.andThen (fun s => { calls := [], result := .ok s }) = a := by
  cases ha : a.result with
  | ok s =>
    rw [Run.andThen_of_ok a _ s ha]
    cases a
    simp only [List.append_nil] at ha ⊢
    rw [ha]
  | stop f s =>
    rw [Run.andThen_of_stop a _ f s ha]
    cases a
    simp only at ha ⊢
    rw [ha]

theorem process_log_calls {σ : Type} (M : MtraceMagic) (R : Registry σ) (log : gzFile)
    (s : σ) :
    ∃ n, n ≤ R.exit_handler.length ∧
      (process_log M R log s).calls =
        (scan M R 0 log s).calls ++ (R.exit_handler.take n).map (fun h => Call.exit h.id) ∧
      (∀ s', (process_log M R log s).result = .ok s' → n = R.exit_handler.length) := by
  unfold process_log
  cases ha : (scan M R 0 log s).result with
  | ok s1 =>
    obtain ⟨n, hn, hcalls, hok⟩ := run_exit_calls R.exit_handler s1
    refine ⟨n, hn, ?_, ?_⟩
    · rw [Run.andThen_of_ok _ _ s1 ha]
      simp only [hcalls]
    · intro s' hs'
      rw [Run.andThen_of_ok _ _ s1 ha] at hs'
      exact hok s' hs'
  | stop f s1 =>
    refine ⟨0, Nat.zero_le _, ?_, ?_⟩
    · rw [Run.andThen_of_stop _ _ f s1 ha]
      simp only [List.take_zero, List.map_nil, List.append_nil]
    · intro s' hs'
      rw [Run.andThen_of_stop _ _ f s1 ha] at hs'
      cases hs'

/-- C6: let the record `entry` of kind `k` (below mtrace_entry_num) be read by process_log
after the records `pre`, and let the chain of `k` hold `H1` before `H2`. Then the run is:
the records before, then on `entry` the handlers before `H1`, then `H1.handle`, whose
returned state is what the handlers between run on, then `H2.handle` on the state they
return, then the rest of the chain, then the later records and the exit calls (a call that
stops the process ends the run). And over the whole run the `handle` calls on this record
are those of a front part of the chain of `k`, one per chain element and in chain order,
the whole chain when the run completes; no other handler is passed the record. -/
theorem C6_chain_order (M : MtraceMagic) {σ : Type} (R : Registry σ) (pre post : gzFile)
    (r : Int) (entry : mtrace_entry) (s : σ) (l1 l2 l3 : List (EntryHandler σ))
    (H1 H2 : EntryHandler σ)
    (hpre : ∀ p ∈ pre, p.1 > 0) (hr : r > 0) (hk : entry.h.type < M.mtrace_entry_num)
    (hchain : R.entry_handler entry.h.type = l1 ++ H1 :: (l2 ++ H2 :: l3)) :
    process_log M R (pre ++ (r, entry) :: post) s =
      (scan M R 0 pre s).andThen (fun s0 =>
        (run_handle pre.length entry l1 s0).andThen (fun s1 =>
          (call_handle pre.length entry H1 s1).andThen (fun s2 =>
            (run_handle pre.length entry l2 s2).andThen (fun s3 =>
              (call_handle pre.length entry H2 s3).andThen (fun s4 =>
                (run_handle pre.length entry l3 s4).andThen (fun s5 =>
                  (scan M R (pre.length + 1) post s5).andThen
                    (run_exit R.exit_handler))))))) ∧
    ∃ n, n ≤ (R.entry_handler entry.h.type).length ∧
      (process_log M R (pre ++ (r, entry) :: post) s).calls.filter
          (Call.isHandleOf pre.length) =
        ((R.entry_handler entry.h.type).take n).map (fun h => Call.handle h.id pre.length) ∧
      (∀ s', (process_log M R (pre ++ (r, entry) :: post) s).result = .ok s' →
        n = (R.entry_handler entry.h.type).length) := by
  have hscan : scan M R 0 (pre ++ (r, entry) :: post) s =
      (scan M R 0 pre s).andThen (fun s0 =>
        (run_handle pre.length entry (R.entry_handler entry.h.type) s0).andThen
          (scan M R (pre.length + 1) post)) := by
    rw [scan_append M R pre _ hpre 0 s]
    congr 1
    funext s0
    rw [Nat.zero_add, scan_cons_pos M R _ r entry post s0 hr]
    simp only [dispatch, if_pos hk]
  constructor
  · unfold process_log
    rw [hscan, hchain]
    simp only [run_handle_append, run_handle_cons, Run.andThen_assoc]
  · -- the calls made before the record, on it, and after it
    have hbefore : (scan M R 0 pre s).calls.filter (Call.isHandleOf pre.length) = [] := by
      rw [List.filter_eq_nil_iff]
      intro c hc
      obtain ⟨id, j, rfl, _, hj⟩ := scan_calls M R pre 0 s c hc
      simp only [Call.isHandleOf, beq_iff_eq]
      omega
    have hafter : ∀ s5, (scan M R (pre.length + 1) post s5).calls.filter
        (Call.isHandleOf pre.length) = [] := by
      intro s5
      rw [List.filter_eq_nil_iff]
      intro c hc
      obtain ⟨id, j, rfl, hj, _⟩ := scan_calls M R post _ s5 c hc
      simp only [Call.isHandleOf, beq_iff_eq]
      omega
    have hexit : ∀ s6, (run_exit R.exit_handler s6).calls.filter
        (Call.isHandleOf pre.length) = [] := by
      intro s6
      rw [List.filter_eq_nil_iff]
      intro c hc
      obtain ⟨n, _, hcalls, _⟩ := run_exit_calls R.exit_handler s6
      rw [hcalls, List.mem_map] at hc
      obtain ⟨h, _, rfl⟩ := hc
      simp only [Call.isHandleOf, Bool.false_eq_true, not_false_eq_true]
    unfold process_log
    rw [hscan, Run.andThen_assoc]
    cases h0 : (scan M R 0 pre s).result with
    | stop f s0 =>
      refine ⟨0, Nat.zero_le _, ?_, ?_⟩
      · rw [Run.andThen_calls_filter, h0, hbefore]
        rfl
      · intro s' hs'
        rw [Run.andThen_of_stop _ _ f s0 h0] at hs'
        cases hs'
    | ok s0 =>
      obtain ⟨n, hn, hcalls, hok⟩ :=
        run_handle_calls pre.length entry (R.entry_handler entry.h.type) s0
      refine ⟨n, hn, ?_, ?_⟩
      · rw [Run.andThen_calls_filter, h0, hbefore, List.nil_append]
        simp only []
        rw [Run.andThen_assoc, Run.andThen_calls_filter, hcalls]
        have hkeep : List.filter (Call.isHandleOf pre.length)
            (((R.entry_handler entry.h.type).take n).map
              (fun h => Call.handle h.id pre.length))
            = ((R.entry_handler entry.h.type).take n).map
              (fun h => Call.handle h.id pre.length) := by
          rw [List.filter_eq_self]
          intro c hc
          rw [List.mem_map] at hc
          obtain ⟨h, _, rfl⟩ := hc
          simp only [Call.isHandleOf, beq_self_eq_true]
        rw [hkeep]
        cases h1 : (run_handle pre.length entry (R.entry_handler entry.h.type) s0).result with
        | stop f s1 => simp only [List.append_nil]
        | ok s1 =>
          simp only []
          rw [Run.andThen_calls_filter, hafter s1]
          cases h2 : (scan M R (pre.length + 1) post s1).result with
          | stop f s2 => simp only [List.append_nil]
          | ok s2 => simp only [hexit s2, List.append_nil]
      · intro s' hs'
        rw [Run.andThen_of_ok _ _ s0 h0] at hs'
        obtain ⟨s1, hs1, _⟩ := Run.andThen_result_ok _ _ s' hs'
        obtain ⟨s2, hs2, _⟩ := Run.andThen_result_ok _ _ s1 hs1
        exact hok s2 hs2

/-- C8: in the calls made by any run of process_log, every `handle` call comes before
every `exit` call: the calls are a list of `handle` calls followed by a list of `exit`
calls. -/
theorem C8_handle_before_exit (M : MtraceMagic) {σ : Type} (R : Registry σ) (log : gzFile)
    (s : σ) :
    ∃ hs xs, (process_log M R log s).calls = hs ++ xs ∧
      (∀ c ∈ hs, c.isHandle = true) ∧ (∀ c ∈ xs, c.isExit = true) := by
  obtain ⟨n, _, hcalls, _⟩ := process_log_calls M R log s
  refine ⟨_, _, hcalls, ?_, ?_⟩
  · intro c hc
    obtain ⟨id, j, rfl, _, _⟩ := scan_calls M R log 0 s c hc
    rfl
  · intro c hc
    rw [List.mem_map] at hc
    obtain ⟨h, _, rfl⟩ := hc
    rfl

/-- C9, as stated, fails: on a log whose first read is an AppData record and whose second
read returns -1, process_log with the chains of init_handlers handles the record, calls the
three exit handlers and returns. -/
theorem C9_negative_read_counterexample :
    (process_log magic (init_handlers magic no_analysis)
        [(1, mtrace_entry.appdata { h := ⟨11, 0⟩, u64 := 42 }),
         (-1, mtrace_entry.other ⟨0, 0⟩ [])]
        (State.init magic ())).calls
      = [Call.handle 1 0, Call.exit 4, Call.exit 5, Call.exit 6] ∧
    (process_log magic (init_handlers magic no_analysis)
        [(1, mtrace_entry.appdata { h := ⟨11, 0⟩, u64 := 42 }),
         (-1, mtrace_entry.other ⟨0, 0⟩ [])]
        (State.init magic ())).result
      = .ok { State.init magic () with mtrace_summary := { app_ops := 42 } } := by
  constructor <;> rfl

/-- C9 amended: when read_entry returns a negative result after the records `pre`,
process_log leaves the loop as it does at end of stream: the run is the run on the log
`pre` alone, no later record is read, and when no call stops the process every exit handler
is then called, once and in registration order, after all the `handle` calls. -/
theorem C9_negative_read_ends_like_end_of_stream (M : MtraceMagic) {σ : Type}
    (R : Registry σ) (pre post : gzFile) (r : Int) (entry : mtrace_entry) (s : σ)
    (hpre : ∀ p ∈ pre, p.1 > 0) (hr : r < 0) :
    process_log M R (pre ++ (r, entry) :: post) s = process_log M R pre s ∧
    (∀ s', (process_log M R (pre ++ (r, entry) :: post) s).result = .ok s' →
      ∃ hs, (process_log M R (pre ++ (r, entry) :: post) s).calls =
          hs ++ R.exit_handler.map (fun h => Call.exit h.id) ∧
        ∀ c ∈ hs, c.isHandle = true) := by
  have hsame : process_log M R (pre ++ (r, entry) :: post) s = process_log M R pre s := by
    unfold process_log
    rw [scan_append M R pre _ hpre 0 s]
    have hstop : scan M R (0 + pre.length) ((r, entry) :: post) =
        fun s0 => { calls := [], result := .ok s0 } :=
      funext fun s0 => scan_cons_nonpos M R _ r entry post s0 (by omega)
    rw [hstop, Run.andThen_ok_right]
  refine ⟨hsame, fun s' hs' => ?_⟩
  rw [hsame] at hs' ⊢
  obtain ⟨n, _, hcalls, hok⟩ := process_log_calls M R pre s
  refine ⟨(scan M R 0 pre s).calls, ?_, ?_⟩
  · rw [hcalls, hok s' hs', List.take_length]
  · intro c hc
    obtain ⟨id, j, rfl, _, _⟩ := scan_calls M R pre 0 s c hc
    rfl

/-! ## The chains built by init_handlers -/

theorem magic_kinds_distinct (M : MtraceMagic) (hM : M.WF) :
    (M.mtrace_entry_label ≠ M.mtrace_entry_access ∧ M.mtrace_entry_label ≠ M.mtrace_entry_host ∧
      M.mtrace_entry_label ≠ M.mtrace_entry_fcall ∧ M.mtrace_entry_label ≠ M.mtrace_entry_lock ∧
      M.mtrace_entry_label ≠ M.mtrace_entry_appdata) ∧
    (M.mtrace_entry_access ≠ M.mtrace_entry_host ∧ M.mtrace_entry_access ≠ M.mtrace_entry_fcall ∧
      M.mtrace_entry_access ≠ M.mtrace_entry_lock ∧
      M.mtrace_entry_access ≠ M.mtrace_entry_appdata) ∧
    (M.mtrace_entry_host ≠ M.mtrace_entry_fcall ∧ M.mtrace_entry_host ≠ M.mtrace_entry_lock ∧
      M.mtrace_entry_host ≠ M.mtrace_entry_appdata) ∧
    (M.mtrace_entry_fcall ≠ M.mtrace_entry_lock ∧
      M.mtrace_entry_fcall ≠ M.mtrace_entry_appdata) ∧
    M.mtrace_entry_lock ≠ M.mtrace_entry_appdata := by
  have hd := hM.1
  simp only [List.nodup_cons, List.mem_cons, List.mem_singleton, not_or, List.not_mem_nil,
    or_false, List.nodup_nil, and_true, not_false_eq_true] at hd
  tauto

/-- The chains after init_handlers, kind by kind, and the exit chain. -/
theorem init_handlers_chains (M : MtraceMagic) {X : Type} (A : Analyses X) (hM : M.WF) :
    (init_handlers M A).entry_handler M.mtrace_entry_host = [DefaultHostHandler.new M] ∧
    (init_handlers M A).entry_handler M.mtrace_entry_appdata = [DefaultAppDataHandler.new] ∧
    (init_handlers M A).entry_handler M.mtrace_entry_fcall =
      [DefaultFcallHandler.new M, A.DistinctSyscalls.new 4] ∧
    (init_handlers M A).entry_handler M.mtrace_entry_label = [DefaultLabelHandler.new M] ∧
    (init_handlers M A).entry_handler M.mtrace_entry_access = [A.DistinctSyscalls.new 4] ∧
    (init_handlers M A).entry_handler M.mtrace_entry_lock = [A.SerialSections.new 6] ∧
    (init_handlers M A).exit_handler =
      [A.DistinctSyscalls.new 4, A.DistinctOps.new 5, A.SerialSections.new 6] := by
  obtain ⟨⟨a1, a2, a3, a4, a5⟩, ⟨b1, b2, b3, b4⟩, ⟨c1, c2, c3⟩, ⟨d1, d2⟩, e1⟩ :=
    magic_kinds_distinct M hM
  simp [init_handlers, Registry.push_front, Registry.push_back, Registry.exit_push_back,
    Registry.empty, Function.update_apply, a1, a2, a3, a4, a5, b1, b2, b3, b4, c1, c2, c3,
    d1, d2, e1, a1.symm, a2.symm, a3.symm, a4.symm, a5.symm, b1.symm, b2.symm, b3.symm,
    b4.symm, c1.symm, c2.symm, c3.symm, d1.symm, d2.symm, e1.symm]

/-- C7: after init_handlers, the first element of the chain of each of the kinds host,
appdata, fcall and label is the default handler of the kind; the fcall chain is
DefaultFcallHandler followed by DistinctSyscalls, and the other three chains hold the
default handler alone. -/
theorem C7_default_handlers_first (M : MtraceMagic) {X : Type} (A : Analyses X)
    (hM : M.WF) :
    ((init_handlers M A).entry_handler M.mtrace_entry_host).head?
      = some (DefaultHostHandler.new M) ∧
    ((init_handlers M A).entry_handler M.mtrace_entry_appdata).head?
      = some DefaultAppDataHandler.new ∧
    ((init_handlers M A).entry_handler M.mtrace_entry_fcall).head?
      = some (DefaultFcallHandler.new M) ∧
    ((init_handlers M A).entry_handler M.mtrace_entry_label).head?
      = some (DefaultLabelHandler.new M) ∧
    (init_handlers M A).entry_handler M.mtrace_entry_fcall =
      [DefaultFcallHandler.new M, A.DistinctSyscalls.new 4] ∧
    (init_handlers M A).entry_handler M.mtrace_entry_host = [DefaultHostHandler.new M] ∧
    (init_handlers M A).entry_handler M.mtrace_entry_appdata = [DefaultAppDataHandler.new] ∧
    (init_handlers M A).entry_handler M.mtrace_entry_label = [DefaultLabelHandler.new M] := by
  obtain ⟨h1, h2, h3, h4, _, _, _⟩ := init_handlers_chains M A hM
  rw [h1, h2, h3, h4]
  exact ⟨rfl, rfl, rfl, rfl, rfl, rfl, rfl, rfl⟩

/-- C7 evaluated at the constants of `magic`. -/
theorem C7_default_handlers_first_witness :
    ((init_handlers magic no_analysis).entry_handler magic.mtrace_entry_host).head?
      = some (DefaultHostHandler.new magic) ∧
    ((init_handlers magic no_analysis).entry_handler magic.mtrace_entry_appdata).head?
      = some DefaultAppDataHandler.new ∧
    ((init_handlers magic no_analysis).entry_handler magic.mtrace_entry_fcall).head?
      = some (DefaultFcallHandler.new magic) ∧
    ((init_handlers magic no_analysis).entry_handler magic.mtrace_entry_label).head?
      = some (DefaultLabelHandler.new magic) ∧
    (init_handlers magic no_analysis).entry_handler magic.mtrace_entry_fcall =
      [DefaultFcallHandler.new magic, no_analysis.DistinctSyscalls.new 4] ∧
    (init_handlers magic no_analysis).entry_handler magic.mtrace_entry_host
      = [DefaultHostHandler.new magic] ∧
    (init_handlers magic no_analysis).entry_handler magic.mtrace_entry_appdata
      = [DefaultAppDataHandler.new] ∧
    (init_handlers magic no_analysis).entry_handler magic.mtrace_entry_label
      = [DefaultLabelHandler.new magic] :=
  C7_default_handlers_first magic no_analysis (by decide)

/-! ## Results of the dispatch on the chains of init_handlers -/

theorem Run.andThen_result {σ : Type} (a : Run σ) (k : σ → Run σ) :
    (a.andThen k).result =
      match a.result with
      | .ok s => (k s).result
      | .stop f s => .stop f s := by
  cases ha : a.result with
  | ok s => rw [Run.andThen_of_ok a k s ha]
  | stop f s => rw [Run.andThen_of_stop a k f s ha]

theorem dispatch_result_one {σ : Type} (M : MtraceMagic) (R : Registry σ) (i : Nat)
    (entry : mtrace_entry) (s : σ) (H : EntryHandler σ)
    (hk : entry.h.type < M.mtrace_entry_num) (hchain : R.entry_handler entry.h.type = [H]) :
    (dispatch M R i entry s).result = H.handle entry s := by
  simp only [dispatch, if_pos hk, hchain, run_handle, Run.andThen_result, call_handle]
  cases H.handle entry s <;> rfl

theorem dispatch_result_two {σ : Type} (M : MtraceMagic) (R : Registry σ) (i : Nat)
    (entry : mtrace_entry) (s s1 : σ) (H H' : EntryHandler σ)
    (hk : entry.h.type < M.mtrace_entry_num) (hchain : R.entry_handler entry.h.type = [H, H'])
    (h1 : H.handle entry s = .ok s1) :
    (dispatch M R i entry s).result = H'.handle entry s1 := by
  simp only [dispatch, if_pos hk, hchain, run_handle, Run.andThen_result, call_handle, h1]
  cases H'.handle entry s1 <;> rfl

theorem scan_result_step {σ : Type} (M : MtraceMagic) (R : Registry σ) (i : Nat) (r : Int)
    (entry : mtrace_entry) (log : gzFile) (s s1 : σ) (hr : r > 0)
    (hd : (dispatch M R i entry s).result = .ok s1) :
    (scan M R i ((r, entry) :: log) s).result = (scan M R (i + 1) log s1).result := by
  rw [scan_cons_pos M R i r entry log s hr, Run.andThen_result, hd]

theorem analysis_handle_returns {X : Type} (A : AnalysisModule X) (id : Nat)
    (hA : A.returns) (entry : mtrace_entry) (s : State X) :
    ∃ x, (A.new id).handle entry s = .ok { s with analysis := x } := by
  obtain ⟨x, hx⟩ := hA.1 entry s
  exact ⟨x, by simp only [AnalysisModule.new, hx, Outcome.map]⟩

theorem analysis_exit_returns {X : Type} (A : AnalysisModule X) (id : Nat)
    (hA : A.returns) (s : State X) :
    ∃ x, (A.new id).exit s = .ok { s with analysis := x } := by
  obtain ⟨x, hx⟩ := hA.2 s
  exact ⟨x, by simp only [AnalysisModule.new, hx, Outcome.map]⟩

/-- The exit calls of the chain of init_handlers change the analysis state only, when the
modules return. -/
theorem run_exit_init_handlers (M : MtraceMagic) {X : Type} (A : Analyses X) (hM : M.WF)
    (hA : A.returns) (s : State X) :
    ∃ x, (run_exit (init_handlers M A).exit_handler s).result = .ok { s with analysis := x } := by
  obtain ⟨_, _, _, _, _, _, hexit⟩ := init_handlers_chains M A hM
  obtain ⟨x1, h1⟩ := analysis_exit_returns A.DistinctSyscalls 4 hA.1 s
  obtain ⟨x2, h2⟩ := analysis_exit_returns A.DistinctOps 5 hA.2.1 { s with analysis := x1 }
  obtain ⟨x3, h3⟩ := analysis_exit_returns A.SerialSections 6 hA.2.2 { s with analysis := x2 }
  refine ⟨x3, ?_⟩
  rw [hexit]
  simp only [run_exit, Run.andThen_result, call_exit, h1, h2, h3]

/-- C5: with the chains built by init_handlers (the analysis modules returning from their
calls), on constants for which label type 1 and CPU 0 exist, process_log run from the
initial state over the six-record scenario log returns, and then the application name is
"foo", the summary counter 42, slot 0 of mtrace_call_pc 0 and the Label Table empty. -/
theorem C5_end_to_end (M : MtraceMagic) {X : Type} (A : Analyses X) (x : X)
    (hM : M.WF) (hlabel : 1 < M.mtrace_label_end) (hcpu : 0 < M.MAX_CPUS)
    (hA : A.returns) :
    ∃ s', (process_log M (init_handlers M A) (scenario_log M) (State.init M x)).result
        = .ok s' ∧
      cstr s'.mtrace_app_name = [102, 111, 111] ∧
      s'.mtrace_summary.app_ops = 42 ∧
      s'.mtrace_call_pc[0]? = some 0 ∧
      s'.mtrace_label_map = [] := by
  obtain ⟨chost, cappdata, cfcall, clabel, _, _, _⟩ := init_handlers_chains M A hM
  have hnum := hM.2.1
  have khost : M.mtrace_entry_host < M.mtrace_entry_num := hnum _ (by simp)
  have kappdata : M.mtrace_entry_appdata < M.mtrace_entry_num := hnum _ (by simp)
  have kfcall : M.mtrace_entry_fcall < M.mtrace_entry_num := hnum _ (by simp)
  have klabel : M.mtrace_entry_label < M.mtrace_entry_num := hnum _ (by simp)
  have hsub := hM.2.2.1
  simp only [List.nodup_cons, List.mem_cons, List.mem_singleton, not_or, List.not_mem_nil,
    or_false] at hsub
  -- record 0: the host record
  let e0 : mtrace_host_entry :=
    { h := ⟨M.mtrace_entry_host, 0⟩, host_type := M.mtrace_access_all_cpu,
      access := ⟨[102, 111, 111, 0]⟩ }
  let s1 : State X :=
    { State.init M x with
      mtrace_app_name := strncpy [102, 111, 111, 0] sizeof_mtrace_app_name
      mtrace_enable := e0 }
  have d0 : (dispatch M (init_handlers M A) 0 (.host e0) (State.init M x)).result = .ok s1 := by
    rw [dispatch_result_one M _ 0 (.host e0) _ (DefaultHostHandler.new M) khost chost]
    exact host_handle_access M e0 (State.init M x) (not_or.2 hsub.1) rfl
  -- record 1: the appdata record
  let s2 : State X := { s1 with mtrace_summary := { app_ops := 42 } }
  have d1 : (dispatch M (init_handlers M A) 1
      (.appdata { h := ⟨M.mtrace_entry_appdata, 0⟩, u64 := 42 }) s1).result = .ok s2 := by
    rw [dispatch_result_one M _ 1 (.appdata { h := ⟨M.mtrace_entry_appdata, 0⟩, u64 := 42 }) _
      DefaultAppDataHandler.new kappdata cappdata]
    rfl
  -- record 2: fcall start
  let f2 : mtrace_fcall_entry :=
    { h := ⟨M.mtrace_entry_fcall, 0⟩, state := M.mtrace_start, pc := 0x100 }
  have hlen : (0 : Nat) < (List.replicate M.MAX_CPUS 0).length := by
    rw [List.length_replicate]; exact hcpu
  have hf2 : DefaultFcallHandler.handle M (.fcall f2) s2 =
      .ok { s2 with mtrace_call_pc := s2.mtrace_call_pc.set 0 0x100 } := by
    rw [(fcall_handle_recognized M f2 s2 hM).1 (Or.inl rfl)]
    exact set_call_pc_ok s2 0 0x100 hlen
  obtain ⟨x3, hx3⟩ := analysis_handle_returns A.DistinctSyscalls 4 hA.1 (.fcall f2)
    { s2 with mtrace_call_pc := s2.mtrace_call_pc.set 0 0x100 }
  have d2 := dispatch_result_two M (init_handlers M A) 2 (.fcall f2) s2 _
    (DefaultFcallHandler.new M) (A.DistinctSyscalls.new 4) kfcall cfcall hf2
  rw [hx3] at d2
  -- record 3: fcall pause
  let f3 : mtrace_fcall_entry :=
    { h := ⟨M.mtrace_entry_fcall, 0⟩, state := M.mtrace_pause, pc := 0 }
  let s3 : State X :=
    { s2 with mtrace_call_pc := s2.mtrace_call_pc.set 0 0x100, analysis := x3 }
  have hf3 : DefaultFcallHandler.handle M (.fcall f3) s3 =
      .ok { s3 with mtrace_call_pc := s3.mtrace_call_pc.set 0 0 } := by
    rw [(fcall_handle_recognized M f3 s3 hM).2 (Or.inl rfl)]
    exact set_call_pc_ok s3 0 0 (by rw [List.length_set]; exact hlen)
  obtain ⟨x4, hx4⟩ := analysis_handle_returns A.DistinctSyscalls 4 hA.1 (.fcall f3)
    { s3 with mtrace_call_pc := s3.mtrace_call_pc.set 0 0 }
  have d3 := dispatch_result_two M (init_handlers M A) 3 (.fcall f3) s3 _
    (DefaultFcallHandler.new M) (A.DistinctSyscalls.new 4) kfcall cfcall hf3
  rw [hx4] at d3
  -- records 4 and 5: the label is added, then removed
  let s4 : State X := { s3 with mtrace_call_pc := s3.mtrace_call_pc.set 0 0, analysis := x4 }
  let l4 : mtrace_label_entry :=
    { h := ⟨M.mtrace_entry_label, 0⟩, label_type := 1, guest_addr := 0x2000, bytes := 16,
      str := [] }
  let l5 : mtrace_label_entry :=
    { h := ⟨M.mtrace_entry_label, 0⟩, label_type := 1, guest_addr := 0x2000, bytes := 0,
      str := [] }
  let s5 : State X := { s4 with mtrace_label_map := s4.mtrace_label_map.add_label l4 }
  let s6 : State X := { s5 with mtrace_label_map := s5.mtrace_label_map.rem_label l5 }
  have d4 : (dispatch M (init_handlers M A) 4 (.label l4) s4).result = .ok s5 := by
    rw [dispatch_result_one M _ 4 (.label l4) _ (DefaultLabelHandler.new M) klabel clabel]
    exact label_handle_valid M l4 s4 ⟨Nat.one_pos, hlabel⟩
  have d5 : (dispatch M (init_handlers M A) 5 (.label l5) s5).result = .ok s6 := by
    rw [dispatch_result_one M _ 5 (.label l5) _ (DefaultLabelHandler.new M) klabel clabel]
    exact label_handle_valid M l5 s5 ⟨Nat.one_pos, hlabel⟩
  -- the loop, then the exit calls
  have hscan : (scan M (init_handlers M A) 0 (scenario_log M) (State.init M x)).result
      = .ok s6 := by
    unfold scenario_log
    rw [scan_result_step M _ 0 1 _ _ _ s1 (by decide) d0,
      scan_result_step M _ 1 1 _ _ _ s2 (by decide) d1,
      scan_result_step M _ 2 1 _ _ _ s3 (by decide) d2,
      scan_result_step M _ 3 1 _ _ _ s4 (by decide) d3,
      scan_result_step M _ 4 1 _ _ _ s5 (by decide) d4,
      scan_result_step M _ 5 1 _ _ _ s6 (by decide) d5]
    rfl
  obtain ⟨x7, hx7⟩ := run_exit_init_handlers M A hM hA s6
  refine ⟨{ s6 with analysis := x7 }, ?_, ?_, rfl, ?_, ?_⟩
  · unfold process_log
    rw [Run.andThen_result, hscan]
    exact hx7
  · show cstr (strncpy [102, 111, 111, 0] sizeof_mtrace_app_name) = [102, 111, 111]
    decide
  · show (((List.replicate M.MAX_CPUS 0).set 0 0x100).set 0 0)[0]? = some 0
    rw [List.getElem?_set_self (by rw [List.length_set]; exact hlen)]
  · rfl

theorem no_analysis_returns : no_analysis.returns :=
  ⟨⟨fun _ s => ⟨s.analysis, rfl⟩, fun s => ⟨s.analysis, rfl⟩⟩,
   ⟨fun _ s => ⟨s.analysis, rfl⟩, fun s => ⟨s.analysis, rfl⟩⟩,
   ⟨fun _ s => ⟨s.analysis, rfl⟩, fun s => ⟨s.analysis, rfl⟩⟩⟩

/-- C5 evaluated at the constants of `magic` with analysis modules that do nothing. -/
theorem C5_end_to_end_witness :
    ∃ s', (process_log magic (init_handlers magic no_analysis) (scenario_log magic)
        (State.init magic ())).result = .ok s' ∧
      cstr s'.mtrace_app_name = [102, 111, 111] ∧
      s'.mtrace_summary.app_ops = 42 ∧
      s'.mtrace_call_pc[0]? = some 0 ∧
      s'.mtrace_label_map = [] :=
  C5_end_to_end magic no_analysis () (by decide) (by decide) (by decide) no_analysis_returns

/-- C6 evaluated: an Fcall record read after one AppData record, with the chains of
init_handlers: DefaultFcallHandler, then DistinctSyscalls. -/
theorem C6_chain_order_witness :
    process_log magic (init_handlers magic no_analysis)
        (appdata_log ++ (1, fcall_start_record) :: []) (State.init magic ()) =
      (scan magic (init_handlers magic no_analysis) 0 appdata_log (State.init magic ())).andThen
        (fun s0 =>
        (run_handle appdata_log.length fcall_start_record [] s0).andThen (fun s1 =>
          (call_handle appdata_log.length fcall_start_record
              (DefaultFcallHandler.new magic) s1).andThen (fun s2 =>
            (run_handle appdata_log.length fcall_start_record [] s2).andThen (fun s3 =>
              (call_handle appdata_log.length fcall_start_record
                  (no_analysis.DistinctSyscalls.new 4) s3).andThen (fun s4 =>
                (run_handle appdata_log.length fcall_start_record [] s4).andThen (fun s5 =>
                  (scan magic (init_handlers magic no_analysis) (appdata_log.length + 1) []
                      s5).andThen
                    (run_exit (init_handlers magic no_analysis).exit_handler))))))) ∧
    ∃ n, n ≤ ((init_handlers magic no_analysis).entry_handler
          fcall_start_record.h.type).length ∧
      (process_log magic (init_handlers magic no_analysis)
          (appdata_log ++ (1, fcall_start_record) :: []) (State.init magic ())).calls.filter
          (Call.isHandleOf appdata_log.length) =
        (((init_handlers magic no_analysis).entry_handler fcall_start_record.h.type).take
          n).map (fun h => Call.handle h.id appdata_log.length) ∧
      (∀ s', (process_log magic (init_handlers magic no_analysis)
          (appdata_log ++ (1, fcall_start_record) :: []) (State.init magic ())).result
            = .ok s' →
        n = ((init_handlers magic no_analysis).entry_handler
          fcall_start_record.h.type).length) :=
  C6_chain_order magic (init_handlers magic no_analysis) appdata_log [] 1 fcall_start_record
    (State.init magic ()) [] [] [] (DefaultFcallHandler.new magic)
    (no_analysis.DistinctSyscalls.new 4) (by decide) (by decide) (by decide) rfl

/-- C9 amended, evaluated: one AppData record, then a read that returns -1. -/
theorem C9_negative_read_ends_like_end_of_stream_witness :
    process_log magic (init_handlers magic no_analysis)
        (appdata_log ++ (-1, mtrace_entry.other ⟨0, 0⟩ []) :: []) (State.init magic ())
      = process_log magic (init_handlers magic no_analysis) appdata_log (State.init magic ()) ∧
    (∀ s', (process_log magic (init_handlers magic no_analysis)
        (appdata_log ++ (-1, mtrace_entry.other ⟨0, 0⟩ []) :: []) (State.init magic ())).result
          = .ok s' →
      ∃ hs, (process_log magic (init_handlers magic no_analysis)
          (appdata_log ++ (-1, mtrace_entry.other ⟨0, 0⟩ []) :: [])
          (State.init magic ())).calls =
          hs ++ (init_handlers magic no_analysis).exit_handler.map (fun h => Call.exit h.id) ∧
        ∀ c ∈ hs, c.isHandle = true) :=
  C9_negative_read_ends_like_end_of_stream magic (init_handlers magic no_analysis) appdata_log
    [] (-1) (mtrace_entry.other ⟨0, 0⟩ []) (State.init magic ()) (by decide) (by decide)

/-! ## The exit calls at end of stream -/

theorem process_log_stops_at_nonpos {σ : Type} (M : MtraceMagic) (R : Registry σ)
    (pre post : gzFile) (r : Int) (entry : mtrace_entry) (s : σ)
    (hpre : ∀ p ∈ pre, p.1 > 0) (hr : ¬ r > 0) :
    process_log M R (pre ++ (r, entry) :: post) s = process_log M R pre s := by
  unfold process_log
  rw [scan_append M R pre _ hpre 0 s]
  have hstop : scan M R (0 + pre.length) ((r, entry) :: post) =
      fun s0 => { calls := [], result := .ok s0 } :=
    funext fun s0 => scan_cons_nonpos M R _ r entry post s0 hr
  rw [hstop, Run.andThen_ok_right]

/-- C11: let read_entry return 0 after the records `pre`, the loop having handled them
without a stop, and let the analysis modules return from their calls. Then the exit chain
built by init_handlers is DistinctSyscalls, DistinctOps, SerialSections (objects 4, 5, 6);
process_log makes, after the `handle` calls of the loop, exactly the calls exit of 4, exit
of 5, exit of 6, in this order, and returns (with the core state the loop reached). -/
theorem C11_exit_handlers_in_order (M : MtraceMagic) {X : Type} (A : Analyses X)
    (pre post : gzFile) (entry : mtrace_entry) (s s1 : State X)
    (hM : M.WF) (hpre : ∀ p ∈ pre, p.1 > 0)
    (hloop : (scan M (init_handlers M A) 0 pre s).result = .ok s1) (hA : A.returns) :
    (init_handlers M A).exit_handler =
      [A.DistinctSyscalls.new 4, A.DistinctOps.new 5, A.SerialSections.new 6] ∧
    (process_log M (init_handlers M A) (pre ++ (0, entry) :: post) s).calls =
      (scan M (init_handlers M A) 0 pre s).calls ++ [Call.exit 4, Call.exit 5, Call.exit 6] ∧
    (∀ c ∈ (scan M (init_handlers M A) 0 pre s).calls, c.isHandle = true) ∧
    ∃ x, (process_log M (init_handlers M A) (pre ++ (0, entry) :: post) s).result =
      .ok { s1 with analysis := x } := by
  obtain ⟨_, _, _, _, _, _, hexit⟩ := init_handlers_chains M A hM
  obtain ⟨x, hx⟩ := run_exit_init_handlers M A hM hA s1
  have hres : (process_log M (init_handlers M A) pre s).result = .ok { s1 with analysis := x } := by
    unfold process_log
    rw [Run.andThen_result, hloop]
    exact hx
  rw [process_log_stops_at_nonpos M _ pre post 0 entry s hpre (by decide)]
  refine ⟨hexit, ?_, ?_, x, hres⟩
  · obtain ⟨n, _, hcalls, hok⟩ := process_log_calls M (init_handlers M A) pre s
    rw [hcalls, hok _ hres, List.take_length, hexit]
    rfl
  · intro c hc
    obtain ⟨id, j, rfl, _, _⟩ := scan_calls M _ pre 0 s c hc
    rfl

/-- C11 evaluated: one AppData record, then end of stream, under `magic`. -/
theorem C11_exit_handlers_in_order_witness :
    (init_handlers magic no_analysis).exit_handler =
      [no_analysis.DistinctSyscalls.new 4, no_analysis.DistinctOps.new 5,
        no_analysis.SerialSections.new 6] ∧
    (process_log magic (init_handlers magic no_analysis)
        (appdata_log ++ (0, mtrace_entry.other ⟨0, 0⟩ []) :: []) (State.init magic ())).calls =
      (scan magic (init_handlers magic no_analysis) 0 appdata_log (State.init magic ())).calls
        ++ [Call.exit 4, Call.exit 5, Call.exit 6] ∧
    (∀ c ∈ (scan magic (init_handlers magic no_analysis) 0 appdata_log
        (State.init magic ())).calls, c.isHandle = true) ∧
    ∃ x, (process_log magic (init_handlers magic no_analysis)
        (appdata_log ++ (0, mtrace_entry.other ⟨0, 0⟩ []) :: []) (State.init magic ())).result =
      .ok { ({ State.init magic () with mtrace_summary := { app_ops := 42 } } : State Unit)
            with analysis := x } :=
  C11_exit_handlers_in_order magic no_analysis appdata_log [] (mtrace_entry.other ⟨0, 0⟩ [])
    (State.init magic ()) { State.init magic () with mtrace_summary := { app_ops := 42 } }
    (by decide) (by decide) rfl no_analysis_returns

/-! ## More on DefaultHostHandler -/

theorem host_run_valid (M : MtraceMagic) {X : Type} (es : List mtrace_host_entry) :
    ∀ s : State X, (∀ e ∈ es, valid_host_type M e) →
      ∃ s', handle_all (DefaultHostHandler.handle M) (es.map mtrace_entry.host) s = .ok s' := by
  induction es with
  | nil => intro s _; exact ⟨s, rfl⟩
  | cons e es ih =>
    intro s hv
    have hve := hv e (List.mem_cons_self _ _)
    have hv' : ∀ e ∈ es, valid_host_type M e := fun x hx => hv x (List.mem_cons_of_mem _ hx)
    by_cases hc : e.host_type = M.mtrace_call_clear_cpu ∨ e.host_type = M.mtrace_call_set_cpu
    · simp only [List.map_cons, handle_all, host_handle_cpu M e s hc]
      exact ih s hv'
    · have ha : e.host_type = M.mtrace_access_all_cpu := by
        rcases hve with h | h | h
        · exact h
        · exact absurd (Or.inl h) hc
        · exact absurd (Or.inr h) hc
      simp only [List.map_cons, handle_all, host_handle_access M e s hc ha]
      exact ih _ hv'

theorem host_run_cpu_only (M : MtraceMagic) {X : Type} (es : List mtrace_host_entry) :
    ∀ s : State X,
      (∀ e ∈ es, e.host_type = M.mtrace_call_clear_cpu ∨ e.host_type = M.mtrace_call_set_cpu) →
      handle_all (DefaultHostHandler.handle M) (es.map mtrace_entry.host) s = .ok s := by
  induction es with
  | nil => intro s _; rfl
  | cons e es ih =>
    intro s hc
    simp only [List.map_cons, handle_all,
      host_handle_cpu M e s (hc e (List.mem_cons_self _ _))]
    exact ih s (fun x hx => hc x (List.mem_cons_of_mem _ hx))

/-- C12: for every sequence of Host records with accepted sub-types handled by
DefaultHostHandler from any state (application name set or not), if `r` is the last
access_all_cpu record of the sequence, the run succeeds and `mtrace_enable` after it is the
record `r`. -/
theorem C12_enable_is_last_access_all_cpu (M : MtraceMagic) {X : Type}
    (pre post : List mtrace_host_entry) (r : mtrace_host_entry) (s : State X)
    (hM : M.WF)
    (hvalid : ∀ e ∈ pre ++ r :: post, valid_host_type M e)
    (hr : r.host_type = M.mtrace_access_all_cpu)
    (hlast : ∀ e ∈ post, e.host_type ≠ M.mtrace_access_all_cpu) :
    ∃ s', handle_all (DefaultHostHandler.handle M)
        ((pre ++ r :: post).map mtrace_entry.host) s = .ok s' ∧
      s'.mtrace_enable = r := by
  obtain ⟨s1, hrun1⟩ := host_run_valid M pre s
    (fun e he => hvalid e (List.mem_append_left _ he))
  have hnc : ¬ (r.host_type = M.mtrace_call_clear_cpu ∨ r.host_type = M.mtrace_call_set_cpu) := by
    have hd := hM.2.2.1
    simp only [List.nodup_cons, List.mem_cons, List.mem_singleton, not_or, List.not_mem_nil,
      or_false] at hd
    rw [hr]
    exact not_or.2 hd.1
  have hpost : ∀ e ∈ post,
      e.host_type = M.mtrace_call_clear_cpu ∨ e.host_type = M.mtrace_call_set_cpu := by
    intro e he
    rcases hvalid e (List.mem_append_right _ (List.mem_cons_of_mem _ he)) with h | h | h
    · exact absurd h (hlast e he)
    · exact Or.inl h
    · exact Or.inr h
  refine ⟨{ s1 with
      mtrace_app_name :=
        if s1.mtrace_app_name.headD 0 = 0 then strncpy r.access.str sizeof_mtrace_app_name
        else s1.mtrace_app_name
      mtrace_enable := r }, ?_, rfl⟩
  rw [List.map_append, handle_all_append _ _ _ s s1 hrun1]
  simp only [List.map_cons, handle_all, host_handle_access M r s1 hnc hr]
  exact host_run_cpu_only M post _ hpost

/-- C12 evaluated: "foo", then "bar", then a set_cpu record, from the initial state:
`mtrace_enable` is the "bar" record although the application name was set by "foo". -/
theorem C12_enable_is_last_access_all_cpu_witness :
    ∃ s', handle_all (DefaultHostHandler.handle magic)
        (([host_record 1 [102, 111, 111, 0]] ++ host_record 1 [98, 97, 114, 0] ::
          [host_record 3 []]).map mtrace_entry.host) (State.init magic ()) = .ok s' ∧
      s'.mtrace_enable = host_record 1 [98, 97, 114, 0] :=
  C12_enable_is_last_access_all_cpu magic [host_record 1 [102, 111, 111, 0]]
    [host_record 3 []] (host_record 1 [98, 97, 114, 0]) (State.init magic ())
    (by decide) (by decide) (by decide) (by decide)

/-- C13: for every Host record whose sub-type is set_cpu or clear_cpu and every prior
state, DefaultHostHandler returns and the state after the call is the state before it:
application name, `mtrace_enable`, summary counter, per-CPU PC array and Label Table (and
the state of the analysis modules) are unchanged. -/
theorem C13_set_clear_cpu_is_noop (M : MtraceMagic) {X : Type} (e : mtrace_host_entry)
    (s : State X)
    (h : e.host_type = M.mtrace_call_set_cpu ∨ e.host_type = M.mtrace_call_clear_cpu) :
    DefaultHostHandler.handle M (mtrace_entry.host e) s = .ok s :=
  host_handle_cpu M e s h.symm

/-- C13 evaluated at a set_cpu record, in a state where every global is set. -/
theorem C13_set_clear_cpu_is_noop_witness :
    DefaultHostHandler.handle magic (mtrace_entry.host (host_record 3 [120, 0]))
        ({ mtrace_enable := host_record 1 [102, 0], mtrace_app_name := [102, 0]
           mtrace_summary := { app_ops := 7 }, mtrace_call_pc := [1, 2, 3, 4]
           mtrace_label_map := [label_record 8192 8 [122]], analysis := () } : State Unit)
      = .ok { mtrace_enable := host_record 1 [102, 0], mtrace_app_name := [102, 0]
              mtrace_summary := { app_ops := 7 }, mtrace_call_pc := [1, 2, 3, 4]
              mtrace_label_map := [label_record 8192 8 [122]], analysis := () } :=
  C13_set_clear_cpu_is_noop magic (host_record 3 [120, 0]) _ (by decide)

/-- C14: on a Host record, DefaultHostHandler stops the process by `die` if and only if the
sub-type is none of access_all_cpu, set_cpu and clear_cpu; and when it is none of them the
handler stops with the state, application name and `mtrace_enable` included, exactly as it
was before the call. -/
theorem C14_host_bad_type_is_fatal (M : MtraceMagic) {X : Type} (e : mtrace_host_entry)
    (s : State X) :
    ((∃ s', DefaultHostHandler.handle M (mtrace_entry.host e) s = .stop .die s') ↔
      ¬ valid_host_type M e) ∧
    (¬ valid_host_type M e →
      DefaultHostHandler.handle M (mtrace_entry.host e) s = .stop .die s) := by
  refine ⟨⟨?_, fun h => ⟨s, host_handle_bad M e s h⟩⟩, host_handle_bad M e s⟩
  rintro ⟨s', hs'⟩ hv
  by_cases hc : e.host_type = M.mtrace_call_clear_cpu ∨ e.host_type = M.mtrace_call_set_cpu
  · rw [host_handle_cpu M e s hc] at hs'
    cases hs'
  · have ha : e.host_type = M.mtrace_access_all_cpu := by
      rcases hv with h | h | h
      · exact h
      · exact absurd (Or.inl h) hc
      · exact absurd (Or.inr h) hc
    rw [host_handle_access M e s hc ha] at hs'
    cases hs'

/-! ## More on DefaultFcallHandler -/

/-- On a recognized call state the handler is one write to slot `cpu` of `mtrace_call_pc`. -/
theorem fcall_handle_is_write (M : MtraceMagic) {X : Type} (f : mtrace_fcall_entry)
    (s : State X) (hrec : recognized_state M f) :
    ∃ v, DefaultFcallHandler.handle M (mtrace_entry.fcall f) s = set_call_pc s f.h.cpu v := by
  simp only [DefaultFcallHandler.handle]
  split_ifs with h1 h2 h3 h4
  · exact ⟨_, rfl⟩
  · exact ⟨_, rfl⟩
  · exact ⟨_, rfl⟩
  · exact ⟨_, rfl⟩
  · rcases hrec with h | h | h | h
    · exact absurd h h1
    · exact absurd h h2
    · exact absurd h h3
    · exact absurd h h4

theorem fcall_handle_unrecognized (M : MtraceMagic) {X : Type} (f : mtrace_fcall_entry)
    (s : State X) (hrec : ¬ recognized_state M f) :
    DefaultFcallHandler.handle M (mtrace_entry.fcall f) s = .stop .die s := by
  simp only [recognized_state, not_or] at hrec
  obtain ⟨h1, h2, h3, h4⟩ := hrec
  simp only [DefaultFcallHandler.handle]
  rw [if_neg h1, if_neg h2, if_neg h3, if_neg h4]

theorem set_call_pc_not_die {X : Type} (s s' : State X) (cpu v : Nat) :
    set_call_pc s cpu v ≠ .stop .die s' := by
  unfold set_call_pc
  split_ifs <;> simp

/-- C15: on an Fcall record, DefaultFcallHandler stops the process by `die` if and only if
the state of the record is none of resume, start, pause and done; and when it is none of
them the handler stops with the state, the per-CPU PC array included, exactly as it was
before the call. -/
theorem C15_fcall_bad_state_is_fatal (M : MtraceMagic) {X : Type} (f : mtrace_fcall_entry)
    (s : State X) :
    ((∃ s', DefaultFcallHandler.handle M (mtrace_entry.fcall f) s = .stop .die s') ↔
      ¬ recognized_state M f) ∧
    (¬ recognized_state M f →
      DefaultFcallHandler.handle M (mtrace_entry.fcall f) s = .stop .die s) := by
  refine ⟨⟨?_, fun h => ⟨s, fcall_handle_unrecognized M f s h⟩⟩,
    fcall_handle_unrecognized M f s⟩
  rintro ⟨s', hs'⟩ hrec
  obtain ⟨v, hv⟩ := fcall_handle_is_write M f s hrec
  rw [hv] at hs'
  exact set_call_pc_not_die s s' _ v hs'

/-- C16: for every Fcall record with a recognized state whose CPU `c` indexes a slot of
`mtrace_call_pc`, DefaultFcallHandler returns, and in the state it returns every slot other
than `c` holds what it held before, the array has the same number of slots, and the
application name, `mtrace_enable`, the summary counter, the Label Table (and the state of
the analysis modules) are what they were. -/
theorem C16_fcall_frame (M : MtraceMagic) {X : Type} (f : mtrace_fcall_entry) (s : State X)
    (hrec : recognized_state M f) (hc : f.h.cpu < s.mtrace_call_pc.length) :
    ∃ s', DefaultFcallHandler.handle M (mtrace_entry.fcall f) s = .ok s' ∧
      (∀ d, d ≠ f.h.cpu → s'.mtrace_call_pc[d]? = s.mtrace_call_pc[d]?) ∧
      s'.mtrace_call_pc.length = s.mtrace_call_pc.length ∧
      s'.mtrace_app_name = s.mtrace_app_name ∧
      s'.mtrace_enable = s.mtrace_enable ∧
      s'.mtrace_summary = s.mtrace_summary ∧
      s'.mtrace_label_map = s.mtrace_label_map ∧
      s'.analysis = s.analysis := by
  obtain ⟨v, hv⟩ := fcall_handle_is_write M f s hrec
  rw [hv, set_call_pc_ok s _ v hc]
  refine ⟨_, rfl, ?_, ?_, rfl, rfl, rfl, rfl, rfl⟩
  · intro d hd
    exact List.getElem?_set_ne (Ne.symm hd)
  · exact List.length_set _ _ _

/-- C16 evaluated at a pause record for CPU 2 in a state where every slot is set. -/
theorem C16_fcall_frame_witness :
    ∃ s', DefaultFcallHandler.handle magic (mtrace_entry.fcall fcall_pause_record)
        ({ State.init magic () with mtrace_call_pc := [10, 20, 30, 40] } : State Unit)
          = .ok s' ∧
      (∀ d, d ≠ fcall_pause_record.h.cpu →
        s'.mtrace_call_pc[d]? = ([10, 20, 30, 40] : List Nat)[d]?) ∧
      s'.mtrace_call_pc.length = ([10, 20, 30, 40] : List Nat).length ∧
      s'.mtrace_app_name = (State.init magic ()).mtrace_app_name ∧
      s'.mtrace_enable = (State.init magic ()).mtrace_enable ∧
      s'.mtrace_summary = (State.init magic ()).mtrace_summary ∧
      s'.mtrace_label_map = (State.init magic ()).mtrace_label_map ∧
      s'.analysis = () :=
  C16_fcall_frame magic fcall_pause_record
    { State.init magic () with mtrace_call_pc := [10, 20, 30, 40] } (by decide) (by decide)

/-! ## Indices stay in range -/

theorem Run.in_range_andThen (M : MtraceMagic) {X : Type} (a : Run (State X))
    (k : State X → Run (State X)) (ha : a.in_range M)
    (hk : ∀ s, s.mtrace_call_pc.length = M.MAX_CPUS → (k s).in_range M) :
    (a.andThen k).in_range M := by
  rw [Run.in_range, Run.andThen_result]
  cases har : a.result with
  | ok s1 => exact hk s1 (ha.1 s1 har)
  | stop f s1 =>
    refine ⟨fun t h => ?_, fun t h => ?_⟩
    · cases h
    · cases h
      exact ha.2 s1 har

theorem Run.in_range_ok (M : MtraceMagic) {X : Type} (s : State X)
    (hs : s.mtrace_call_pc.length = M.MAX_CPUS) :
    Run.in_range M ({ calls := [], result := .ok s } : Run (State X)) := by
  refine ⟨fun t h => ?_, fun t h => ?_⟩
  · cases h
    exact hs
  · cases h

theorem Run.in_range_of_ok (M : MtraceMagic) {X : Type} (a : Run (State X)) (s : State X)
    (ha : a.result = .ok s) (hs : s.mtrace_call_pc.length = M.MAX_CPUS) : a.in_range M := by
  refine ⟨fun t h => ?_, fun t h => ?_⟩
  · rw [ha] at h
    cases h
    exact hs
  · rw [ha] at h
    cases h

theorem Run.in_range_of_stop (M : MtraceMagic) {X : Type} (a : Run (State X)) (f : Fault)
    (s : State X) (ha : a.result = .stop f s) (hf : f ≠ .out_of_range) : a.in_range M := by
  refine ⟨fun t h => ?_, fun t h => ?_⟩
  · rw [ha] at h
    cases h
  · rw [ha] at h
    cases h
    exact hf rfl

theorem host_handle_in_range (M : MtraceMagic) {X : Type} (i : Nat) (entry : mtrace_entry)
    (s : State X) (hs : s.mtrace_call_pc.length = M.MAX_CPUS) :
    (call_handle i entry (DefaultHostHandler.new M) s).in_range M := by
  cases entry with
  | host e =>
    by_cases hc : e.host_type = M.mtrace_call_clear_cpu ∨ e.host_type = M.mtrace_call_set_cpu
    · exact Run.in_range_of_ok M _ s (host_handle_cpu M e s hc) hs
    · by_cases ha : e.host_type = M.mtrace_access_all_cpu
      · exact Run.in_range_of_ok M _ _ (host_handle_access M e s hc ha) hs
      · exact Run.in_range_of_stop M _ .die s
          (host_handle_bad M e s (fun hv => by
            rcases hv with h | h | h
            · exact ha h
            · exact hc (Or.inl h)
            · exact hc (Or.inr h))) (by decide)
  | appdata a => exact Run.in_range_of_stop M _ .wrong_arm s rfl (by decide)
  | fcall f => exact Run.in_range_of_stop M _ .wrong_arm s rfl (by decide)
  | label l => exact Run.in_range_of_stop M _ .wrong_arm s rfl (by decide)
  | other h0 q => exact Run.in_range_of_stop M _ .wrong_arm s rfl (by decide)

theorem appdata_handle_in_range (M : MtraceMagic) {X : Type} (i : Nat) (entry : mtrace_entry)
    (s : State X) (hs : s.mtrace_call_pc.length = M.MAX_CPUS) :
    (call_handle i entry DefaultAppDataHandler.new s).in_range M := by
  cases entry with
  | appdata a => exact Run.in_range_of_ok M _ _ rfl hs
  | host e => exact Run.in_range_of_stop M _ .wrong_arm s rfl (by decide)
  | fcall f => exact Run.in_range_of_stop M _ .wrong_arm s rfl (by decide)
  | label l => exact Run.in_range_of_stop M _ .wrong_arm s rfl (by decide)
  | other h0 q => exact Run.in_range_of_stop M _ .wrong_arm s rfl (by decide)

theorem label_handle_bad (M : MtraceMagic) {X : Type} (l : mtrace_label_entry) (s : State X)
    (hbad : l.label_type = 0 ∨ l.label_type ≥ M.mtrace_label_end) :
    DefaultLabelHandler.handle M (mtrace_entry.label l) s = .stop .die s := by
  simp only [DefaultLabelHandler.handle]
  rw [if_pos hbad]

theorem label_handle_in_range (M : MtraceMagic) {X : Type} (i : Nat) (entry : mtrace_entry)
    (s : State X) (hs : s.mtrace_call_pc.length = M.MAX_CPUS) :
    (call_handle i entry (DefaultLabelHandler.new M) s).in_range M := by
  cases entry with
  | label l =>
    by_cases hbad : l.label_type = 0 ∨ l.label_type ≥ M.mtrace_label_end
    · exact Run.in_range_of_stop M _ .die s (label_handle_bad M l s hbad) (by decide)
    · have hv := label_handle_valid M l s (by omega)
      by_cases hb : l.bytes ≠ 0
      · rw [if_pos hb] at hv
        exact Run.in_range_of_ok M _ _ hv hs
      · rw [if_neg hb] at hv
        exact Run.in_range_of_ok M _ _ hv hs
  | host e => exact Run.in_range_of_stop M _ .wrong_arm s rfl (by decide)
  | appdata a => exact Run.in_range_of_stop M _ .wrong_arm s rfl (by decide)
  | fcall f => exact Run.in_range_of_stop M _ .wrong_arm s rfl (by decide)
  | other h0 q => exact Run.in_range_of_stop M _ .wrong_arm s rfl (by decide)

theorem fcall_handle_in_range (M : MtraceMagic) {X : Type} (i : Nat) (entry : mtrace_entry)
    (s : State X) (hs : s.mtrace_call_pc.length = M.MAX_CPUS) (hcpu : cpu_in_range M entry) :
    (call_handle i entry (DefaultFcallHandler.new M) s).in_range M := by
  cases entry with
  | fcall f =>
    by_cases hrec : recognized_state M f
    · obtain ⟨v, hv⟩ := fcall_handle_is_write M f s hrec
      have hc : f.h.cpu < s.mtrace_call_pc.length := by rw [hs]; exact hcpu hrec
      rw [set_call_pc_ok s _ v hc] at hv
      refine Run.in_range_of_ok M _ _ hv ?_
      simp only [List.length_set]
      exact hs
    · exact Run.in_range_of_stop M _ .die s (fcall_handle_unrecognized M f s hrec) (by decide)
  | host e => exact Run.in_range_of_stop M _ .wrong_arm s rfl (by decide)
  | appdata a => exact Run.in_range_of_stop M _ .wrong_arm s rfl (by decide)
  | label l => exact Run.in_range_of_stop M _ .wrong_arm s rfl (by decide)
  | other h0 q => exact Run.in_range_of_stop M _ .wrong_arm s rfl (by decide)

theorem analysis_handle_core {X : Type} (A : AnalysisModule X) (id : Nat)
    (entry : mtrace_entry) (s t : State X) (h : (A.new id).handle entry s = .ok t) :
    t.core = s.core := by
  simp only [AnalysisModule.new] at h
  cases hx : A.handle entry s with
  | ok x =>
    rw [hx] at h
    cases h
    rfl
  | stop f x =>
    rw [hx] at h
    cases h

theorem analysis_exit_core {X : Type} (A : AnalysisModule X) (id : Nat)
    (s t : State X) (h : (A.new id).exit s = .ok t) : t.core = s.core := by
  simp only [AnalysisModule.new] at h
  cases hx : A.exit s with
  | ok x =>
    rw [hx] at h
    cases h
    rfl
  | stop f x =>
    rw [hx] at h
    cases h

theorem core_call_pc {X Y : Type} (s : State X) (t : State Y) (h : t.core = s.core) :
    t.mtrace_call_pc = s.mtrace_call_pc :=
  congrArg State.mtrace_call_pc h

theorem analysis_handle_in_range (M : MtraceMagic) {X : Type} (A : AnalysisModule X)
    (id i : Nat) (entry : mtrace_entry) (s : State X) (hA : A.in_range)
    (hs : s.mtrace_call_pc.length = M.MAX_CPUS) :
    (call_handle i entry (A.new id) s).in_range M := by
  refine ⟨fun t h => ?_, fun t h => ?_⟩
  · rw [core_call_pc s t (analysis_handle_core A id entry s t h)]
    exact hs
  · simp only [call_handle, AnalysisModule.new] at h
    cases hx : A.handle entry s with
    | ok x =>
      rw [hx] at h
      cases h
    | stop f x =>
      rw [hx] at h
      simp only [Outcome.map, Outcome.stop.injEq] at h
      obtain ⟨rfl, _⟩ := h
      exact hA.1 entry s x hx

theorem analysis_exit_in_range (M : MtraceMagic) {X : Type} (A : AnalysisModule X)
    (id : Nat) (s : State X) (hA : A.in_range)
    (hs : s.mtrace_call_pc.length = M.MAX_CPUS) :
    (call_exit (A.new id) s).in_range M := by
  refine ⟨fun t h => ?_, fun t h => ?_⟩
  · rw [core_call_pc s t (analysis_exit_core A id s t h)]
    exact hs
  · simp only [call_exit, AnalysisModule.new] at h
    cases hx : A.exit s with
    | ok x =>
      rw [hx] at h
      cases h
    | stop f x =>
      rw [hx] at h
      simp only [Outcome.map, Outcome.stop.injEq] at h
      obtain ⟨rfl, _⟩ := h
      exact hA.2 s x hx

/-- A kind that is none of the six `init_handlers` registers for has an empty chain. -/
theorem init_handlers_chain_other (M : MtraceMagic) {X : Type} (A : Analyses X) (k : Nat)
    (h1 : k ≠ M.mtrace_entry_host) (h2 : k ≠ M.mtrace_entry_appdata)
    (h3 : k ≠ M.mtrace_entry_fcall) (h4 : k ≠ M.mtrace_entry_label)
    (h5 : k ≠ M.mtrace_entry_access) (h6 : k ≠ M.mtrace_entry_lock) :
    (init_handlers M A).entry_handler k = [] := by
  simp [init_handlers, Registry.push_front, Registry.push_back, Registry.exit_push_back,
    Registry.empty, Function.update_apply, h1, h2, h3, h4, h5, h6]

/-- Every element of a chain built by init_handlers is one of the four default handlers,
DistinctSyscalls or SerialSections. -/
theorem init_handlers_chain_mem (M : MtraceMagic) {X : Type} (A : Analyses X) (hM : M.WF)
    (k : Nat) (H : EntryHandler (State X)) (hH : H ∈ (init_handlers M A).entry_handler k) :
    H = DefaultHostHandler.new M ∨ H = DefaultAppDataHandler.new ∨
      H = DefaultFcallHandler.new M ∨ H = DefaultLabelHandler.new M ∨
      H = A.DistinctSyscalls.new 4 ∨ H = A.SerialSections.new 6 := by
  obtain ⟨c1, c2, c3, c4, c5, c6, _⟩ := init_handlers_chains M A hM
  by_cases h1 : k = M.mtrace_entry_host
  · rw [h1, c1] at hH; simp only [List.mem_singleton] at hH; tauto
  by_cases h2 : k = M.mtrace_entry_appdata
  · rw [h2, c2] at hH; simp only [List.mem_singleton] at hH; tauto
  by_cases h3 : k = M.mtrace_entry_fcall
  · rw [h3, c3] at hH
    simp only [List.mem_cons, List.mem_singleton, List.not_mem_nil, or_false] at hH
    tauto
  by_cases h4 : k = M.mtrace_entry_label
  · rw [h4, c4] at hH; simp only [List.mem_singleton] at hH; tauto
  by_cases h5 : k = M.mtrace_entry_access
  · rw [h5, c5] at hH; simp only [List.mem_singleton] at hH; tauto
  by_cases h6 : k = M.mtrace_entry_lock
  · rw [h6, c6] at hH; simp only [List.mem_singleton] at hH; tauto
  rw [init_handlers_chain_other M A k h1 h2 h3 h4 h5 h6] at hH
  simp at hH

theorem run_handle_in_range (M : MtraceMagic) {X : Type} (A : Analyses X) (hA : A.in_range)
    (i : Nat) (entry : mtrace_entry) (hcpu : cpu_in_range M entry) :
    ∀ l : List (EntryHandler (State X)),
      (∀ H ∈ l, H = DefaultHostHandler.new M ∨ H = DefaultAppDataHandler.new ∨
        H = DefaultFcallHandler.new M ∨ H = DefaultLabelHandler.new M ∨
        H = A.DistinctSyscalls.new 4 ∨ H = A.SerialSections.new 6) →
      ∀ s : State X, s.mtrace_call_pc.length = M.MAX_CPUS →
        (run_handle i entry l s).in_range M := by
  intro l
  induction l with
  | nil =>
    intro _ s hs
    exact Run.in_range_ok M s hs
  | cons H l ih =>
    intro hl s hs
    rw [run_handle_cons]
    refine Run.in_range_andThen M _ _ ?_
      (fun s1 hs1 => ih (fun H' hH' => hl H' (List.mem_cons_of_mem _ hH')) s1 hs1)
    rcases hl H (List.mem_cons_self _ _) with h | h | h | h | h | h
    · rw [h]; exact host_handle_in_range M i entry s hs
    · rw [h]; exact appdata_handle_in_range M i entry s hs
    · rw [h]; exact fcall_handle_in_range M i entry s hs hcpu
    · rw [h]; exact label_handle_in_range M i entry s hs
    · rw [h]; exact analysis_handle_in_range M _ 4 i entry s hA.1 hs
    · rw [h]; exact analysis_handle_in_range M _ 6 i entry s hA.2.2 hs

theorem scan_in_range (M : MtraceMagic) {X : Type} (A : Analyses X) (hM : M.WF)
    (hA : A.in_range) (log : gzFile) :
    indices_in_range M log →
      ∀ (i : Nat) (s : State X), s.mtrace_call_pc.length = M.MAX_CPUS →
        (scan M (init_handlers M A) i log s).in_range M := by
  induction log with
  | nil =>
    intro _ i s hs
    exact Run.in_range_ok M s hs
  | cons p log ih =>
    intro hlog i s hs
    obtain ⟨r, entry⟩ := p
    have hlog' : indices_in_range M log := fun q hq => hlog q (List.mem_cons_of_mem _ hq)
    by_cases hr : r > 0
    · obtain ⟨hk, hcpu⟩ := hlog (r, entry) (List.mem_cons_self _ _) hr
      rw [scan_cons_pos M _ i r entry log s hr]
      refine Run.in_range_andThen M _ _ ?_ (fun s1 hs1 => ih hlog' (i + 1) s1 hs1)
      simp only [dispatch, if_pos hk]
      exact run_handle_in_range M A hA i entry hcpu _
        (fun H hH => init_handlers_chain_mem M A hM _ H hH) s hs
    · rw [scan_cons_nonpos M _ i r entry log s hr]
      exact Run.in_range_ok M s hs

theorem run_exit_in_range (M : MtraceMagic) {X : Type} (A : Analyses X) (hM : M.WF)
    (hA : A.in_range) (s : State X) (hs : s.mtrace_call_pc.length = M.MAX_CPUS) :
    (run_exit (init_handlers M A).exit_handler s).in_range M := by
  obtain ⟨_, _, _, _, _, _, hexit⟩ := init_handlers_chains M A hM
  rw [hexit]
  simp only [run_exit]
  refine Run.in_range_andThen M _ _ (analysis_exit_in_range M _ 4 s hA.1 hs) (fun s1 hs1 => ?_)
  refine Run.in_range_andThen M _ _ (analysis_exit_in_range M _ 5 s1 hA.2.1 hs1)
    (fun s2 hs2 => ?_)
  refine Run.in_range_andThen M _ _ (analysis_exit_in_range M _ 6 s2 hA.2.2 hs2)
    (fun s3 hs3 => ?_)
  exact Run.in_range_ok M s3 hs3

/-- C17: neither index is checked by the code. (1) For a record whose kind tag is below
mtrace_entry_num the lookup `entry_handler[entry.h.type]` is in range: the dispatch is the
run of that chain; for a tag at or above mtrace_entry_num it is out of range. (2) For an
Fcall record with a recognized state and a CPU below MAX_CPUS the write to
`mtrace_call_pc[cpu]` (an array of MAX_CPUS slots) is in range and DefaultFcallHandler
returns; for a CPU outside the array it is out of range. (3) On a log whose records
satisfy the two preconditions, a run of process_log with the chains of init_handlers from
the initial state never stops with an out-of-range fault (the analysis modules, outside
the core, being assumed not to raise one themselves). -/
theorem C17_indices_in_range (M : MtraceMagic) {X : Type} (A : Analyses X) (x : X)
    (log : gzFile) (hM : M.WF) (hlog : indices_in_range M log) (hA : A.in_range) :
    (∀ (i : Nat) (entry : mtrace_entry) (s : State X),
      (entry.h.type < M.mtrace_entry_num →
        dispatch M (init_handlers M A) i entry s =
          run_handle i entry ((init_handlers M A).entry_handler entry.h.type) s) ∧
      (¬ entry.h.type < M.mtrace_entry_num →
        dispatch M (init_handlers M A) i entry s =
          { calls := [], result := .stop .out_of_range s })) ∧
    (∀ (f : mtrace_fcall_entry) (s : State X), recognized_state M f →
      s.mtrace_call_pc.length = M.MAX_CPUS →
      (f.h.cpu < M.MAX_CPUS →
        ∃ s', DefaultFcallHandler.handle M (mtrace_entry.fcall f) s = .ok s' ∧
          s'.mtrace_call_pc.length = M.MAX_CPUS) ∧
      (¬ f.h.cpu < M.MAX_CPUS →
        DefaultFcallHandler.handle M (mtrace_entry.fcall f) s = .stop .out_of_range s)) ∧
    (∀ s', (process_log M (init_handlers M A) log (State.init M x)).result ≠
      .stop .out_of_range s') := by
  refine ⟨fun i entry s => ⟨fun hk => ?_, fun hk => ?_⟩, fun f s hrec hs => ⟨fun hc => ?_,
    fun hc => ?_⟩, ?_⟩
  · simp only [dispatch, if_pos hk]
  · simp only [dispatch, if_neg hk]
  · obtain ⟨v, hv⟩ := fcall_handle_is_write M f s hrec
    rw [hv, set_call_pc_ok s _ v (by rw [hs]; exact hc)]
    exact ⟨_, rfl, by simp only [List.length_set]; exact hs⟩
  · obtain ⟨v, hv⟩ := fcall_handle_is_write M f s hrec
    rw [hv]
    unfold set_call_pc
    rw [if_neg (by rw [hs]; exact hc)]
  · have hinit : (State.init M x).mtrace_call_pc.length = M.MAX_CPUS := by
      simp only [State.init, List.length_replicate]
    have hrun : (process_log M (init_handlers M A) log (State.init M x)).in_range M := by
      unfold process_log
      exact Run.in_range_andThen M _ _ (scan_in_range M A hM hA log hlog 0 _ hinit)
        (fun s1 hs1 => run_exit_in_range M A hM hA s1 hs1)
    exact hrun.2

theorem no_analysis_in_range : no_analysis.in_range := by
  refine ⟨⟨fun _ _ _ h => ?_, fun _ _ h => ?_⟩, ⟨fun _ _ _ h => ?_, fun _ _ h => ?_⟩,
    ⟨fun _ _ _ h => ?_, fun _ _ h => ?_⟩⟩ <;> cases h

/-- C17 evaluated on a log of four records under `magic`, with analysis modules that do
nothing. -/
theorem C17_indices_in_range_witness :
    (∀ (i : Nat) (entry : mtrace_entry) (s : State Unit),
      (entry.h.type < magic.mtrace_entry_num →
        dispatch magic (init_handlers magic no_analysis) i entry s =
          run_handle i entry ((init_handlers magic no_analysis).entry_handler entry.h.type)
            s) ∧
      (¬ entry.h.type < magic.mtrace_entry_num →
        dispatch magic (init_handlers magic no_analysis) i entry s =
          { calls := [], result := .stop .out_of_range s })) ∧
    (∀ (f : mtrace_fcall_entry) (s : State Unit), recognized_state magic f →
      s.mtrace_call_pc.length = magic.MAX_CPUS →
      (f.h.cpu < magic.MAX_CPUS →
        ∃ s', DefaultFcallHandler.handle magic (mtrace_entry.fcall f) s = .ok s' ∧
          s'.mtrace_call_pc.length = magic.MAX_CPUS) ∧
      (¬ f.h.cpu < magic.MAX_CPUS →
        DefaultFcallHandler.handle magic (mtrace_entry.fcall f) s
          = .stop .out_of_range s)) ∧
    (∀ s', (process_log magic (init_handlers magic no_analysis) mixed_log
        (State.init magic ())).result ≠ .stop .out_of_range s') :=
  C17_indices_in_range magic no_analysis () mixed_log (by decide) (by decide)
    no_analysis_in_range

/-! ## The core state does not depend on the access and lock records -/

theorem host_handle_core (M : MtraceMagic) {X : Type} (entry : mtrace_entry) (s : State X) :
    (DefaultHostHandler.handle M entry s).map State.core =
      DefaultHostHandler.handle M entry s.core := by
  cases entry with
  | host e =>
    by_cases hc : e.host_type = M.mtrace_call_clear_cpu ∨ e.host_type = M.mtrace_call_set_cpu
    · rw [host_handle_cpu M e s hc, host_handle_cpu M e s.core hc]
      rfl
    · by_cases ha : e.host_type = M.mtrace_access_all_cpu
      · rw [host_handle_access M e s hc ha, host_handle_access M e s.core hc ha]
        rfl
      · have hv : ¬ valid_host_type M e := by
          rintro (h | h | h)
          · exact ha h
          · exact hc (Or.inl h)
          · exact hc (Or.inr h)
        rw [host_handle_bad M e s hv, host_handle_bad M e s.core hv]
        rfl
  | appdata a => rfl
  | fcall f => rfl
  | label l => rfl
  | other h0 q => rfl

theorem appdata_handle_core {X : Type} (entry : mtrace_entry) (s : State X) :
    (DefaultAppDataHandler.handle entry s).map State.core =
      DefaultAppDataHandler.handle entry s.core := by
  cases entry <;> rfl

theorem set_call_pc_core {X : Type} (s : State X) (cpu v : Nat) :
    (set_call_pc s cpu v).map State.core = set_call_pc s.core cpu v := by
  by_cases hc : cpu < s.mtrace_call_pc.length
  · have hc' : cpu < s.core.mtrace_call_pc.length := hc
    rw [set_call_pc_ok s cpu v hc, set_call_pc_ok s.core cpu v hc']
    rfl
  · have hc' : ¬ cpu < s.core.mtrace_call_pc.length := hc
    simp only [set_call_pc, if_neg hc, if_neg hc']
    rfl

theorem fcall_handle_core (M : MtraceMagic) {X : Type} (entry : mtrace_entry) (s : State X) :
    (DefaultFcallHandler.handle M entry s).map State.core =
      DefaultFcallHandler.handle M entry s.core := by
  cases entry with
  | fcall f =>
    simp only [DefaultFcallHandler.handle]
    split_ifs
    · exact set_call_pc_core s _ _
    · exact set_call_pc_core s _ _
    · exact set_call_pc_core s _ _
    · exact set_call_pc_core s _ _
    · rfl
  | host e => rfl
  | appdata a => rfl
  | label l => rfl
  | other h0 q => rfl

theorem label_handle_core (M : MtraceMagic) {X : Type} (entry : mtrace_entry) (s : State X) :
    (DefaultLabelHandler.handle M entry s).map State.core =
      DefaultLabelHandler.handle M entry s.core := by
  cases entry with
  | label l =>
    simp only [DefaultLabelHandler.handle]
    split_ifs <;> rfl
  | host e => rfl
  | appdata a => rfl
  | fcall f => rfl
  | other h0 q => rfl

theorem Outcome.map_eq_ok {σ τ : Type} (g : σ → τ) (o : Outcome σ) (u : τ)
    (h : o.map g = .ok u) : ∃ t, o = .ok t ∧ g t = u := by
  cases o with
  | ok t =>
    simp only [Outcome.map, Outcome.ok.injEq] at h
    exact ⟨t, rfl, h⟩
  | stop f t => simp [Outcome.map] at h

/-- A handler whose effect commutes with forgetting the analysis state gives, from two
states with the same core, outcomes with the same core. -/
theorem core_determined_of_commute (returns : Prop) {X : Type}
    (hd : (Y : Type) → mtrace_entry → State Y → Outcome (State Y))
    (hcomm : ∀ (Y : Type) (entry : mtrace_entry) (s : State Y),
      (hd Y entry s).map State.core = hd Unit entry s.core)
    (i j id : Nat) (exit : State X → Outcome (State X)) (entry : mtrace_entry)
    (s s' : State X) (hcore : s.core = s'.core) :
    Run.core_determined returns
      (call_handle i entry { id := id, handle := hd X, exit := exit } s)
      (call_handle j entry { id := id, handle := hd X, exit := exit } s') := by
  intro t ht
  simp only [call_handle] at ht ⊢
  have h1 : (hd X entry s').map State.core = .ok t.core := by
    rw [hcomm X entry s', ← hcore, ← hcomm X entry s, ht]
    rfl
  obtain ⟨t', ht', hcore'⟩ := Outcome.map_eq_ok _ _ _ h1
  refine ⟨fun u hu => ?_, fun _ => ⟨t', ht'⟩⟩
  rw [ht'] at hu
  cases hu
  exact hcore'.symm

theorem Run.core_determined.imp_returns {p q : Prop} {X : Type} {a b : Run (State X)}
    (h : Run.core_determined p a b) (hqp : q → p) : Run.core_determined q a b :=
  fun t ht => ⟨(h t ht).1, fun hq => (h t ht).2 (hqp hq)⟩

theorem analysis_core_determined {X : Type} (A : AnalysisModule X) (id i j : Nat)
    (entry : mtrace_entry) (s s' : State X) (hcore : s.core = s'.core) :
    Run.core_determined A.returns (call_handle i entry (A.new id) s)
      (call_handle j entry (A.new id) s') := by
  intro t ht
  simp only [call_handle] at ht ⊢
  refine ⟨fun u hu => ?_, fun hA => ?_⟩
  · rw [analysis_handle_core A id entry s t ht, analysis_handle_core A id entry s' u hu]
    exact hcore
  · obtain ⟨x, hx⟩ := analysis_handle_returns A id hA entry s'
    exact ⟨_, hx⟩

theorem Run.core_determined_andThen (returns : Prop) {X : Type} (a b : Run (State X))
    (k k' : State X → Run (State X)) (hab : Run.core_determined returns a b)
    (hk : ∀ t t', t.core = t'.core → Run.core_determined returns (k t) (k' t')) :
    Run.core_determined returns (a.andThen k) (b.andThen k') := by
  intro u hu
  obtain ⟨t, hat, hkt⟩ := Run.andThen_result_ok a k u hu
  obtain ⟨hsame, hex⟩ := hab t hat
  refine ⟨fun u' hu' => ?_, fun hr => ?_⟩
  · obtain ⟨t', hbt', hkt'⟩ := Run.andThen_result_ok b k' u' hu'
    exact (hk t t' (hsame t' hbt') u hkt).1 u' hkt'
  · obtain ⟨t', hbt'⟩ := hex hr
    obtain ⟨u', hu'⟩ := (hk t t' (hsame t' hbt') u hkt).2 hr
    refine ⟨u', ?_⟩
    rw [Run.andThen_result, hbt']
    exact hu'

theorem Run.core_determined_ok (returns : Prop) {X : Type} (s s' : State X)
    (hcore : s.core = s'.core) :
    Run.core_determined returns ({ calls := [], result := .ok s } : Run (State X))
      { calls := [], result := .ok s' } := by
  intro t ht
  cases ht
  exact ⟨fun t' ht' => by cases ht'; exact hcore, fun _ => ⟨s', rfl⟩⟩

theorem run_handle_core_determined (M : MtraceMagic) {X : Type} (A : Analyses X)
    (i j : Nat) (entry : mtrace_entry) :
    ∀ l : List (EntryHandler (State X)),
      (∀ H ∈ l, H = DefaultHostHandler.new M ∨ H = DefaultAppDataHandler.new ∨
        H = DefaultFcallHandler.new M ∨ H = DefaultLabelHandler.new M ∨
        H = A.DistinctSyscalls.new 4 ∨ H = A.SerialSections.new 6) →
      ∀ s s' : State X, s.core = s'.core →
        Run.core_determined A.returns (run_handle i entry l s) (run_handle j entry l s') := by
  intro l
  induction l with
  | nil =>
    intro _ s s' hcore
    exact Run.core_determined_ok _ s s' hcore
  | cons H l ih =>
    intro hl s s' hcore
    rw [run_handle_cons, run_handle_cons]
    refine Run.core_determined_andThen _ _ _ _ _ ?_
      (fun t t' ht => ih (fun H' hH' => hl H' (List.mem_cons_of_mem _ hH')) t t' ht)
    rcases hl H (List.mem_cons_self _ _) with h | h | h | h | h | h
    · rw [h]
      exact core_determined_of_commute _ (fun Y => DefaultHostHandler.handle M)
        (fun Y e s => host_handle_core M e s) i j 0 _ entry s s' hcore
    · rw [h]
      exact core_determined_of_commute _ (fun Y => DefaultAppDataHandler.handle)
        (fun Y e s => appdata_handle_core e s) i j 1 _ entry s s' hcore
    · rw [h]
      exact core_determined_of_commute _ (fun Y => DefaultFcallHandler.handle M)
        (fun Y e s => fcall_handle_core M e s) i j 2 _ entry s s' hcore
    · rw [h]
      exact core_determined_of_commute _ (fun Y => DefaultLabelHandler.handle M)
        (fun Y e s => label_handle_core M e s) i j 3 _ entry s s' hcore
    · rw [h]
      exact (analysis_core_determined A.DistinctSyscalls 4 i j entry s s' hcore).imp_returns
        (fun hA => hA.1)
    · rw [h]
      exact (analysis_core_determined A.SerialSections 6 i j entry s s' hcore).imp_returns
        (fun hA => hA.2.2)

theorem remove_access_lock_cons_keep (M : MtraceMagic) (r : Int) (entry : mtrace_entry)
    (log : gzFile)
    (h : ¬ (r > 0 ∧ (entry.h.type = M.mtrace_entry_access ∨
      entry.h.type = M.mtrace_entry_lock))) :
    remove_access_lock M ((r, entry) :: log) = (r, entry) :: remove_access_lock M log := by
  unfold remove_access_lock
  rw [List.filter_cons_of_pos]
  by_cases hr : r > 0
  · have hk := not_or.1 (fun hk => h ⟨hr, hk⟩)
    simp [hr, hk.1, hk.2]
  · simp [hr]

theorem remove_access_lock_cons_drop (M : MtraceMagic) (r : Int) (entry : mtrace_entry)
    (log : gzFile)
    (h : r > 0 ∧ (entry.h.type = M.mtrace_entry_access ∨ entry.h.type = M.mtrace_entry_lock)) :
    remove_access_lock M ((r, entry) :: log) = remove_access_lock M log := by
  unfold remove_access_lock
  rw [List.filter_cons_of_neg]
  rcases h with ⟨hr, hk | hk⟩ <;> simp [hr, hk]

/-- An access or lock record leaves the core state as it is. -/
theorem dispatch_access_lock_core (M : MtraceMagic) {X : Type} (A : Analyses X) (hM : M.WF)
    (i : Nat) (entry : mtrace_entry) (s t : State X)
    (hk : entry.h.type = M.mtrace_entry_access ∨ entry.h.type = M.mtrace_entry_lock)
    (ht : (dispatch M (init_handlers M A) i entry s).result = .ok t) : t.core = s.core := by
  obtain ⟨_, _, _, _, caccess, clock, _⟩ := init_handlers_chains M A hM
  have hnum := hM.2.1
  rcases hk with hk | hk
  · have hlt : entry.h.type < M.mtrace_entry_num := by rw [hk]; exact hnum _ (by simp)
    rw [dispatch_result_one M _ i entry s (A.DistinctSyscalls.new 4) hlt
      (by rw [hk]; exact caccess)] at ht
    exact analysis_handle_core _ 4 entry s t ht
  · have hlt : entry.h.type < M.mtrace_entry_num := by rw [hk]; exact hnum _ (by simp)
    rw [dispatch_result_one M _ i entry s (A.SerialSections.new 6) hlt
      (by rw [hk]; exact clock)] at ht
    exact analysis_handle_core _ 6 entry s t ht

theorem dispatch_core_determined (M : MtraceMagic) {X : Type} (A : Analyses X) (hM : M.WF)
    (i j : Nat) (entry : mtrace_entry) (s s' : State X) (hcore : s.core = s'.core) :
    Run.core_determined A.returns (dispatch M (init_handlers M A) i entry s)
      (dispatch M (init_handlers M A) j entry s') := by
  by_cases hk : entry.h.type < M.mtrace_entry_num
  · simp only [dispatch, if_pos hk]
    exact run_handle_core_determined M A i j entry _
      (fun H hH => init_handlers_chain_mem M A hM _ H hH) s s' hcore
  · intro t ht
    simp only [dispatch, if_neg hk] at ht
    cases ht

theorem scan_core_determined (M : MtraceMagic) {X : Type} (A : Analyses X) (hM : M.WF)
    (log : gzFile) :
    ∀ (i j : Nat) (s s' : State X), s.core = s'.core →
      Run.core_determined A.returns (scan M (init_handlers M A) i log s)
        (scan M (init_handlers M A) j (remove_access_lock M log) s') := by
  induction log with
  | nil =>
    intro i j s s' hcore
    exact Run.core_determined_ok _ s s' hcore
  | cons p log ih =>
    intro i j s s' hcore
    obtain ⟨r, entry⟩ := p
    by_cases hr : r > 0
    · by_cases hk : entry.h.type = M.mtrace_entry_access ∨ entry.h.type = M.mtrace_entry_lock
      · rw [remove_access_lock_cons_drop M r entry log ⟨hr, hk⟩,
          scan_cons_pos M _ i r entry log s hr]
        intro u hu
        obtain ⟨t, ht, hrest⟩ := Run.andThen_result_ok _ _ u hu
        have htcore : t.core = s'.core := by
          rw [dispatch_access_lock_core M A hM i entry s t hk ht]
          exact hcore
        exact ih (i + 1) j t s' htcore u hrest
      · rw [remove_access_lock_cons_keep M r entry log (fun h => hk h.2),
          scan_cons_pos M _ i r entry log s hr, scan_cons_pos M _ j r entry _ s' hr]
        exact Run.core_determined_andThen _ _ _ _ _
          (dispatch_core_determined M A hM i j entry s s' hcore)
          (fun t t' ht => ih (i + 1) (j + 1) t t' ht)
    · rw [remove_access_lock_cons_keep M r entry log (fun h => hr h.1),
        scan_cons_nonpos M _ i r entry log s hr, scan_cons_nonpos M _ j r entry _ s' hr]
      exact Run.core_determined_ok _ s s' hcore

theorem run_exit_core_determined (M : MtraceMagic) {X : Type} (A : Analyses X) (hM : M.WF)
    (s s' : State X) (hcore : s.core = s'.core) :
    Run.core_determined A.returns (run_exit (init_handlers M A).exit_handler s)
      (run_exit (init_handlers M A).exit_handler s') := by
  obtain ⟨_, _, _, _, _, _, hexit⟩ := init_handlers_chains M A hM
  have hkeep : ∀ (a b : State X), (run_exit (init_handlers M A).exit_handler a).result = .ok b →
      b.core = a.core := by
    intro a b hb
    rw [hexit] at hb
    simp only [run_exit] at hb
    obtain ⟨a1, h1, hb⟩ := Run.andThen_result_ok _ _ b hb
    obtain ⟨a2, h2, hb⟩ := Run.andThen_result_ok _ _ b hb
    obtain ⟨a3, h3, hb⟩ := Run.andThen_result_ok _ _ b hb
    have hb' : b = a3 := by
      cases hb
      rfl
    rw [hb', analysis_exit_core _ 6 a2 a3 h3, analysis_exit_core _ 5 a1 a2 h2,
      analysis_exit_core _ 4 a a1 h1]
  intro t ht
  refine ⟨fun t' ht' => ?_, fun hA => ?_⟩
  · rw [hkeep s t ht, hkeep s' t' ht']
    exact hcore
  · obtain ⟨x, hx⟩ := run_exit_init_handlers M A hM hA s'
    exact ⟨_, hx⟩

/-- C18: let a run of process_log with the chains of init_handlers on a log return. Then a
run from the same state on the log without its access and lock records, if it returns,
returns with the same application name, `mtrace_enable`, summary counter, per-CPU PC array
and Label Table; and it does return when the analysis modules return from their calls. -/
theorem C18_core_ignores_access_and_lock (M : MtraceMagic) {X : Type} (A : Analyses X)
    (log : gzFile) (s s1 : State X) (hM : M.WF)
    (hrun : (process_log M (init_handlers M A) log s).result = .ok s1) :
    (∀ s2, (process_log M (init_handlers M A) (remove_access_lock M log) s).result = .ok s2 →
      s2.mtrace_app_name = s1.mtrace_app_name ∧
      s2.mtrace_enable = s1.mtrace_enable ∧
      s2.mtrace_summary = s1.mtrace_summary ∧
      s2.mtrace_call_pc = s1.mtrace_call_pc ∧
      s2.mtrace_label_map = s1.mtrace_label_map) ∧
    (A.returns →
      ∃ s2, (process_log M (init_handlers M A) (remove_access_lock M log) s).result
        = .ok s2) := by
  have hdet : Run.core_determined A.returns (process_log M (init_handlers M A) log s)
      (process_log M (init_handlers M A) (remove_access_lock M log) s) := by
    unfold process_log
    exact Run.core_determined_andThen _ _ _ _ _ (scan_core_determined M A hM log 0 0 s s rfl)
      (fun t t' ht => run_exit_core_determined M A hM t t' ht)
  obtain ⟨hsame, hex⟩ := hdet s1 hrun
  refine ⟨fun s2 hs2 => ?_, hex⟩
  have hcore := hsame s2 hs2
  exact ⟨(congrArg State.mtrace_app_name hcore).symm, (congrArg State.mtrace_enable hcore).symm,
    (congrArg State.mtrace_summary hcore).symm, (congrArg State.mtrace_call_pc hcore).symm,
    (congrArg State.mtrace_label_map hcore).symm⟩

/-- C18 evaluated on a log under `magic` in which an access record and a lock record
surround an AppData record and an Fcall start record. -/
theorem C18_core_ignores_access_and_lock_witness :
    (∀ s2, (process_log magic (init_handlers magic no_analysis)
        (remove_access_lock magic mixed_log) (State.init magic ())).result = .ok s2 →
      s2.mtrace_app_name = (State.init magic ()).mtrace_app_name ∧
      s2.mtrace_enable = (State.init magic ()).mtrace_enable ∧
      s2.mtrace_summary = { app_ops := 42 } ∧
      s2.mtrace_call_pc = [256, 0, 0, 0] ∧
      s2.mtrace_label_map = []) ∧
    (no_analysis.returns →
      ∃ s2, (process_log magic (init_handlers magic no_analysis)
        (remove_access_lock magic mixed_log) (State.init magic ())).result = .ok s2) :=
  C18_core_ignores_access_and_lock magic no_analysis mixed_log (State.init magic ())
    { State.init magic () with
      mtrace_summary := { app_ops := 42 }, mtrace_call_pc := [256, 0, 0, 0] }
    (by decide) rfl

end Mscan
